import Mathlib

/-!
Verification development for the sell-manager core.

Each definition below is a shallow embedding of a function of the Python
sources (`src/sellmanagement/...`); Python floats are modelled as rationals
(every arithmetic operation appearing in the embedded code — multiplication
by 0.8, 1.5, 2.0, min/max clamping, averaging — is exact in both ℚ and IEEE
doubles on the concrete inputs used here, and the claims are about the
algebra, not about rounding).  Python lists become `List`, `None` becomes
`Option.none`, a raised exception becomes `Except.error`.  Dictionaries that
the code keys by a string are modelled as association lists with Python's
dict semantics (first-insertion position, last value wins).
-/

/-- Python `xs[i:]` for an integer index `i` (negative indices count from the
end, `xs[-0:]` is the whole list). Mirrors CPython slice semantics. -/
def pySliceFrom (xs : List ℚ) (i : ℤ) : List ℚ :=
  if i < 0 then xs.drop (xs.length - (-i).toNat) else xs.drop i.toNat

/-- Python `xs[-n:]` for a positive count `n` (slice of the last `n`
elements); for `n = 0` Python returns the whole list. -/
def pyTakeLast {α : Type} (n : ℕ) (xs : List α) : List α :=
  if n = 0 then xs else xs.drop (xs.length - n)

/-- Python truthy-or for an optional number: `x or d` where a missing value
or a zero is replaced by the default. -/
def pyOrQ (x : Option ℚ) (d : ℚ) : ℚ :=
  match x with
  | none => d
  | some q => if q = 0 then d else q

/-- Python `int(q)` on a float/decimal value: truncation toward zero. -/
def pyInt (q : ℚ) : ℤ := Int.tdiv q.num (q.den : ℤ)

/-- Truthiness of an optional string (`None` and `""` are falsy). -/
def pyTruthyS : Option String → Bool
  | none => false
  | some s => s ≠ ""

/-! ### String primitives

The Python code lower-cases, strips, upper-cases and lexicographically
compares strings.  These are modelled structurally over the character list
(code-point order, ASCII case mapping — every string the embedded code
compares is ASCII). -/

/-- ASCII lower-casing of one character. -/
def lowerChar (c : Char) : Char :=
  if 'A' ≤ c ∧ c ≤ 'Z' then Char.ofNat (c.toNat + 32) else c

/-- ASCII upper-casing of one character. -/
def upperChar (c : Char) : Char :=
  if 'a' ≤ c ∧ c ≤ 'z' then Char.ofNat (c.toNat - 32) else c

/-- `s.lower()` (ASCII model). -/
def strLower (s : String) : String := String.mk (s.data.map lowerChar)

/-- `s.upper()` (ASCII model). -/
def strUpper (s : String) : String := String.mk (s.data.map upperChar)

/-- Python `str.strip()` whitespace test. -/
def isSpaceChar (c : Char) : Bool :=
  c = ' ' ∨ c = '\t' ∨ c = '\n' ∨ c = '\r' ∨ c = Char.ofNat 11 ∨ c = Char.ofNat 12

/-- `s.strip()`: drop whitespace from both ends. -/
def strStrip (s : String) : String :=
  String.mk (((s.data.dropWhile isSpaceChar).reverse.dropWhile isSpaceChar).reverse)

/-- Does `p` occur as a prefix of `s`? (model of Python `str.startswith`). -/
def listHasPre : List Char → List Char → Bool
  | [], _ => true
  | _ :: _, [] => false
  | a :: p, b :: s => a = b && listHasPre p s

/-- Does `p` occur as a contiguous sublist of `s`? -/
def listHasSub (p : List Char) : List Char → Bool
  | [] => listHasPre p []
  | b :: s => listHasPre p (b :: s) || listHasSub p s

/-- Python `pat in s` on strings. -/
def strHasSub (s pat : String) : Bool := listHasSub pat.data s.data

/-- Lexicographic code-point comparison, Python `a < b` on strings. -/
def listLtChars : List Char → List Char → Bool
  | [], [] => false
  | [], _ :: _ => true
  | _ :: _, [] => false
  | a :: s, b :: t =>
    if a < b then true
    else if b < a then false
    else listLtChars s t

/-- Python `a < b` on strings. -/
def strLtB (a b : String) : Bool := listLtChars a.data b.data

/-- Python `a <= b` on strings. -/
def strLeB (a b : String) : Bool := !(strLtB b a)

/-- Stable insertion of `a` into `acc`: `a` goes after every element
`le`-below-or-equal to it. -/
def insertSorted {α : Type} (le : α → α → Bool) (a : α) : List α → List α
  | [] => [a]
  | b :: t => if le b a then b :: insertSorted le a t else a :: b :: t

/-- Stable sort (model of Python `sorted` / `list.sort`). -/
def sortByB {α : Type} (le : α → α → Bool) (l : List α) : List α :=
  l.foldl (fun acc a => insertSorted le a acc) []

/-! ### Rate limiter — `src/sellmanagement/rate_limiter.py`, `AdaptiveRateLimiter` -/

structure RLState where
  initialDelay : ℚ
  currentDelay : ℚ
  maxDelay : ℚ
  successCount : ℕ
  failureCount : ℕ
deriving Repr, DecidableEq

/-- `AdaptiveRateLimiter.__init__(initial_delay, max_delay)`. -/
def mkLimiter (initialDelay : ℚ := 1/10) (maxDelay : ℚ := 30) : RLState :=
  { initialDelay := initialDelay, currentDelay := initialDelay, maxDelay := maxDelay
    successCount := 0, failureCount := 0 }

/-- `AdaptiveRateLimiter.on_success`: increments `_success_count`; once the
count is ≥ 5 the delay is multiplied by 0.8 and floor-clamped at 0.01.  The
source never resets `_success_count`. -/
def on_success (s : RLState) : RLState :=
  let c := s.successCount + 1
  if 5 ≤ c then
    { s with successCount := c, currentDelay := max (1/100) (s.currentDelay * (4/5)) }
  else
    { s with successCount := c }

/-- The pacing test of `on_failure`: `"pacing" in em or "throttl" in em`
after lower-casing the message. -/
def isPacingMsg (msg : String) : Bool :=
  let em := strLower msg
  strHasSub em "pacing" || strHasSub em "throttl"

/-- `AdaptiveRateLimiter.on_failure(error_msg)`: increments `_failure_count`,
doubles the delay (ceiling-clamped) on a pacing/throttling message and
multiplies it by 1.5 (ceiling-clamped) otherwise, then sets
`_failure_count` — not `_success_count` — back to 0. -/
def on_failure (msg : String) (s : RLState) : RLState :=
  let s1 := { s with failureCount := s.failureCount + 1 }
  let s2 :=
    if isPacingMsg msg then
      { s1 with currentDelay := min s1.maxDelay (s1.currentDelay * 2) }
    else
      { s1 with currentDelay := min s1.maxDelay (s1.currentDelay * (3/2)) }
  { s2 with failureCount := 0 }

/-! ### Indicators — `src/sellmanagement/indicators.py` -/

/-- `simple_moving_average(values, length)`: raises for `length <= 0`,
returns `None` for a short history, otherwise the mean of the last
`length` values. -/
def simple_moving_average (values : List ℚ) (length : ℤ) : Except String (Option ℚ) :=
  if length ≤ 0 then .error "length must be > 0"
  else if values = [] ∨ (values.length : ℤ) < length then .ok none
  else
    let window := pySliceFrom values (-length)
    .ok (some (window.sum / (length : ℚ)))

/-- `exponential_moving_average(values, length)`: raises for `length <= 0`,
returns `None` for a short history; otherwise seeds with the mean of
`values[-length:]` and folds the smoothing step over `values[-length+1:]`
(for `length = 1` that Python slice is the whole list). -/
def exponential_moving_average (values : List ℚ) (length : ℤ) : Except String (Option ℚ) :=
  if length ≤ 0 then .error "length must be > 0"
  else if values = [] ∨ (values.length : ℤ) < length then .ok none
  else
    let alpha : ℚ := 2 / ((length : ℚ) + 1)
    let ema0 : ℚ := (pySliceFrom values (-length)).sum / (length : ℚ)
    let tail := pySliceFrom values (1 - length)
    .ok (some (tail.foldl (fun ema v => v * alpha + ema * (1 - alpha)) ema0))

/-- The EMA of spec §4.6 read literally: seed with the SMA of the first
`length` values of the history and run the recurrence once over each of the
remaining values.  This follows the spec sentence, for comparison with the
source function `exponential_moving_average`. -/
def emaSpecSeedFirst (values : List ℚ) (length : ℕ) : Option ℚ :=
  if length = 0 ∨ values.length < length then none
  else
    let alpha : ℚ := 2 / ((length : ℚ) + 1)
    let seed : ℚ := (values.take length).sum / (length : ℚ)
    some ((values.drop length).foldl (fun ema v => v * alpha + ema * (1 - alpha)) seed)

/-- Seed-with-window EMA: mean of the `length`-bar window as seed, then the
recurrence over all but the first value of that same window.  Used to state
what `exponential_moving_average` actually computes. -/
def emaOverWindow (length : ℕ) (window : List ℚ) : ℚ :=
  let alpha : ℚ := 2 / ((length : ℚ) + 1)
  (window.drop 1).foldl (fun ema v => v * alpha + ema * (1 - alpha))
    (window.sum / (length : ℚ))

/-! ### Signal decision — `src/sellmanagement/signals.py`, `decide` -/

structure DecisionOut where
  decision : String
  reason : Option String
  ma_value : Option ℚ
  close : ℚ
deriving Repr, DecidableEq

/-- `(ma_type or "SMA").strip().upper()`. -/
def famOf (ma_type : String) : String :=
  strUpper (strStrip (if ma_type = "" then "SMA" else ma_type))

namespace Signals

/-- `signals.decide(close, ma_type, length, values)`: picks the MA family,
computes the indicator (whose `ValueError` propagates), and returns a
Skip / SellSignal / NoSignal record. -/
def decide (close : ℚ) (ma_type : String) (length : ℤ) (values : List ℚ) :
    Except String DecisionOut := do
  let ma_val ←
    if famOf ma_type = "EMA" then exponential_moving_average values length
    else simple_moving_average values length
  match ma_val with
  | none => .ok ⟨"Skip", some "insufficient_data", none, close⟩
  | some m =>
    if close < m then .ok ⟨"SellSignal", none, some m, close⟩
    else .ok ⟨"NoSignal", none, some m, close⟩

end Signals

/-! ### Claims C2, C9 — rate limiter -/

/-- C2: the claim says the success streak resets when it reaches 5 (as the
delay is multiplied by 0.8) and resets on every failure, so the delay is
reduced exactly once per 5 consecutive successes.  In the source
`_success_count` is never reset: after five successes the 5th call and the
6th call each multiply the delay by 0.8 (0.1 → 0.08 → 0.064), and a single
success right after a failure also reduces the delay (after 4 successes and
one failure, one success reduces 0.15 to 0.12) because `on_failure` resets
`_failure_count`, a write-only counter, instead of the streak. -/
theorem rl_success_streak_never_resets :
    (on_success^[5] (mkLimiter (1/10) 30)).currentDelay = 2/25 ∧
    (on_success^[6] (mkLimiter (1/10) 30)).currentDelay = 8/125 ∧
    (on_success^[6] (mkLimiter (1/10) 30)).successCount = 6 ∧
    (on_success (on_failure "boom" (on_success^[4] (mkLimiter (1/10) 30)))).currentDelay = 3/25 := by
  have hb : isPacingMsg "boom" = false := by decide
  norm_num [Function.iterate_succ_apply, Function.iterate_zero_apply,
    on_success, on_failure, mkLimiter, hb, max_def, min_def]

/-- C9 counterexample: the claim quantifies over every rate-limiter state,
but a limiter constructed with `initial_delay` above `max_delay` (the
constructor does not clamp) has its delay strictly decreased by a pacing
failure: from 100 the delay drops to `min(30, 200) = 30`. -/
theorem rl_on_failure_can_decrease :
    (on_failure "pacing" (mkLimiter 100 30)).currentDelay
      < (mkLimiter 100 30).currentDelay := by
  have hp : isPacingMsg "pacing" = true := by decide
  norm_num [on_failure, mkLimiter, hp, min_def]

/-- C9 (amended): for every state whose delay is nonnegative and at most the
ceiling — as holds for every state reachable from a constructor call with
`initial_delay ≤ max_delay` — `on_failure` never decreases the delay; and
from delay 0.1 with ceiling 30, three consecutive pacing failures yield the
delay sequence 0.2, 0.4, 0.8. -/
theorem rl_on_failure_monotone :
    (∀ (s : RLState) (msg : String), 0 ≤ s.currentDelay →
        s.currentDelay ≤ s.maxDelay →
        s.currentDelay ≤ (on_failure msg s).currentDelay) ∧
    ((on_failure "pacing violation" (mkLimiter (1/10) 30)).currentDelay = 1/5 ∧
      (on_failure "pacing violation"
        (on_failure "pacing violation" (mkLimiter (1/10) 30))).currentDelay = 2/5 ∧
      (on_failure "pacing violation" (on_failure "pacing violation"
        (on_failure "pacing violation" (mkLimiter (1/10) 30)))).currentDelay = 4/5) := by
  have hp : isPacingMsg "pacing violation" = true := by decide
  constructor
  · intro s msg h0 hle
    unfold on_failure
    by_cases hm : isPacingMsg msg = true
    · simp only [hm, if_true]
      refine le_min hle ?_
      nlinarith
    · simp only [hm, if_false]
      refine le_min hle ?_
      nlinarith
  · refine ⟨?_, ?_, ?_⟩ <;> norm_num [on_failure, mkLimiter, hp, min_def]

/-- C9 witness: the monotonicity part applied to the freshly constructed
limiter with delay 0.1 and ceiling 30. -/
theorem rl_on_failure_monotone_witness :
    (mkLimiter (1/10) 30).currentDelay
      ≤ (on_failure "connection reset" (mkLimiter (1/10) 30)).currentDelay :=
  rl_on_failure_monotone.1 (mkLimiter (1/10) 30) "connection reset"
    (by norm_num [mkLimiter]) (by norm_num [mkLimiter])

/-! ### Claims C3, C4 — decision function and EMA -/

/-- C3 counterexample: for `length = 0` the decide function does not return
a Skip decision — the `ValueError` raised by `simple_moving_average`
propagates out of `decide`. -/
theorem decide_raises_on_nonpositive_length :
    Signals.decide 1 "SMA" 0 [] = .error "length must be > 0" := by
  have h : famOf "SMA" = "SMA" := by decide
  simp [Signals.decide, h, simple_moving_average, Bind.bind, Except.bind]

/-- C3 (amended): for `length > 0` and a history shorter than `length`,
`decide` returns — without raising — Skip with reason "insufficient_data"
and a null ma_value; for `length ≤ 0` it instead propagates
`ValueError("length must be > 0")` from the indicator. -/
theorem decide_skip_on_short_history (close : ℚ) (ma_type : String)
    (length : ℤ) (values : List ℚ) :
    (0 < length → (values.length : ℤ) < length →
      Signals.decide close ma_type length values =
        .ok ⟨"Skip", some "insufficient_data", none, close⟩) ∧
    (length ≤ 0 →
      Signals.decide close ma_type length values = .error "length must be > 0") := by
  constructor
  · intro h1 h2
    by_cases hf : famOf ma_type = "EMA" <;>
      simp [Signals.decide, hf, exponential_moving_average, simple_moving_average,
        not_le.mpr h1, h2, Bind.bind, Except.bind]
  · intro h0
    by_cases hf : famOf ma_type = "EMA" <;>
      simp [Signals.decide, hf, exponential_moving_average, simple_moving_average,
        h0, Bind.bind, Except.bind]

/-- C3 witness: both branches at concrete inputs — a 3-point history with
length 10 yields Skip, and length −3 yields the error. -/
theorem decide_skip_on_short_history_witness :
    Signals.decide 100 "SMA" 10 [1, 2, 3] =
        .ok ⟨"Skip", some "insufficient_data", none, 100⟩ ∧
    Signals.decide 2 "EMA" (-3) [5] = .error "length must be > 0" :=
  ⟨(decide_skip_on_short_history 100 "SMA" 10 [1, 2, 3]).1 (by decide) (by decide),
   (decide_skip_on_short_history 2 "EMA" (-3) [5]).2 (by decide)⟩

/-- C4 counterexample: on `values = [1,2,3]`, `length = 2` the source EMA
returns 17/6, while seeding with the SMA of the first 2 values and applying
the recurrence once to the one remaining value gives 5/2. -/
theorem ema_differs_from_spec_seeding :
    exponential_moving_average [1, 2, 3] 2 = .ok (some (17/6)) ∧
    emaSpecSeedFirst [1, 2, 3] 2 = some (5/2) ∧
    exponential_moving_average [1, 2, 3] 2 ≠ .ok (emaSpecSeedFirst [1, 2, 3] 2) := by
  have hne : ([1, 2, 3] : List ℚ) ≠ [] := by decide
  have h2 : (3 - Int.toNat 2) = 1 := by decide
  refine ⟨?_, ?_, ?_⟩ <;>
    norm_num [exponential_moving_average, emaSpecSeedFirst, pySliceFrom, hne, h2]

/-- C4 (amended): for `2 ≤ length ≤ |values|` the source EMA seeds with the
simple average of the *last* `length` values (the window) and then applies
the recurrence across the last `length − 1` values — the window's values
after its first — so each of those values enters both the seed and the
recurrence, rather than entering the recurrence exactly once. -/
theorem ema_recurrence_over_window (values : List ℚ) (length : ℕ)
    (h2 : 2 ≤ length) (hlen : length ≤ values.length) :
    exponential_moving_average values (length : ℤ) =
      .ok (some (emaOverWindow length (values.drop (values.length - length)))) := by
  have hpos : (0 : ℤ) < (length : ℤ) := by exact_mod_cast Nat.lt_of_lt_of_le (by norm_num) h2
  have hne : values ≠ [] := by
    intro h
    rw [h] at hlen
    simp at hlen
    omega
  have hnotlt : ¬ ((values.length : ℤ) < (length : ℤ)) := by
    exact_mod_cast not_lt.mpr hlen
  unfold exponential_moving_average
  rw [if_neg (not_le.mpr hpos), if_neg (by push_neg; exact ⟨hne, not_lt.mp hnotlt⟩)]
  unfold emaOverWindow
  have hslice1 : pySliceFrom values (-(length : ℤ)) = values.drop (values.length - length) := by
    unfold pySliceFrom
    rw [if_pos (by omega)]
    norm_num
  have hslice2 : pySliceFrom values (1 - (length : ℤ)) =
      (values.drop (values.length - length)).drop 1 := by
    unfold pySliceFrom
    rw [if_pos (by omega)]
    rw [List.drop_drop]
    congr 1
    omega
  rw [hslice1, hslice2]
  simp only [Int.cast_natCast]

/-- C4 witness: the amended statement evaluated at `[1,2,3]`, length 2. -/
theorem ema_recurrence_over_window_witness :
    exponential_moving_average [1, 2, 3] ((2 : ℕ) : ℤ) =
      .ok (some (emaOverWindow 2 ([1, 2, 3].drop (3 - 2)))) :=
  ema_recurrence_over_window [1, 2, 3] 2 (by decide) (by decide)

/-! ### Failure journal retry — `src/sellmanagement/download_manager.py`,
`DownloadQueue.retry_failures`

A journal line either JSON-parses to a record carrying optional `token` and
`kind` fields, or fails to parse.  `enqueue` (a `Queue.put` plus best-effort
trace appends) is modelled as never raising, matching its source. -/

inductive JLine where
  | parsed (token kind : Option String) : JLine
  | bad : JLine
deriving Repr, DecidableEq

structure RetrySummary where
  requeued : ℕ
  kept : ℕ
  cleared : ℕ
deriving Repr, DecidableEq

structure RetryOutcome where
  summary : RetrySummary
  remaining : List JLine
  enqueued : List (String × String)
deriving Repr, DecidableEq

/-- The `for i, line in enumerate(lines)` loop of `retry_failures`: lines at
index ≥ `max_attempts` are kept verbatim in `remaining` (without touching
`kept`); earlier lines are enqueued (counted in `requeued` and `cleared`),
dropped when `token`/`kind` are falsy (counted in `cleared`), or kept with
`kept` incremented when JSON parsing fails. -/
def retryGo (maxAttempts : ℕ) : ℕ → List JLine → RetryOutcome
  | _, [] => ⟨⟨0, 0, 0⟩, [], []⟩
  | i, l :: rest =>
    if maxAttempts ≤ i then
      let r := retryGo maxAttempts (i + 1) rest
      ⟨r.summary, l :: r.remaining, r.enqueued⟩
    else
      match l with
      | .parsed tok kind =>
        if pyTruthyS tok && pyTruthyS kind then
          let r := retryGo maxAttempts (i + 1) rest
          ⟨⟨r.summary.requeued + 1, r.summary.kept, r.summary.cleared + 1⟩,
            r.remaining, (tok.getD "", kind.getD "") :: r.enqueued⟩
        else
          let r := retryGo maxAttempts (i + 1) rest
          ⟨⟨r.summary.requeued, r.summary.kept, r.summary.cleared + 1⟩,
            r.remaining, r.enqueued⟩
      | .bad =>
        let r := retryGo maxAttempts (i + 1) rest
        ⟨⟨r.summary.requeued, r.summary.kept + 1, r.summary.cleared⟩,
          l :: r.remaining, r.enqueued⟩

/-- `DownloadQueue.retry_failures(max_attempts)` over the journal's lines;
the journal file is rewritten with `remaining` (deleted when empty). -/
def retry_failures (maxAttempts : ℕ) (lines : List JLine) : RetryOutcome :=
  retryGo maxAttempts 0 lines

/-- C1 counterexample: a journal of exactly 3 well-formed records with
`max_attempts = 2` requeues 2 and leaves 1 in the journal, but the summary
is `requeued=2, cleared=2, kept=0` — not `kept=1`: the third record is
carried to `remaining` without incrementing `kept`. -/
theorem retry_failures_reports_kept_zero :
    (retry_failures 2 [.parsed (some "A") (some "daily"),
        .parsed (some "B") (some "daily"),
        .parsed (some "C") (some "daily")]).summary = ⟨2, 0, 2⟩ ∧
    (retry_failures 2 [.parsed (some "A") (some "daily"),
        .parsed (some "B") (some "daily"),
        .parsed (some "C") (some "daily")]).summary.kept ≠ 1 := by
  decide

/-- C1 (amended): for a failure journal containing exactly 3 well-formed
records, `retry_failures` with `max_attempts = 2` re-enqueues the 2 oldest
records in order, rewrites the journal so that exactly the third record
remains, and returns `requeued=2, cleared=2, kept=0` (`kept` counts only
lines that failed to parse or to enqueue, not records left for a later
pass). -/
theorem retry_failures_three_records (t1 k1 t2 k2 t3 k3 : String)
    (h1 : t1 ≠ "") (h2 : k1 ≠ "") (h3 : t2 ≠ "") (h4 : k2 ≠ "") :
    retry_failures 2 [.parsed (some t1) (some k1), .parsed (some t2) (some k2),
        .parsed (some t3) (some k3)] =
      ⟨⟨2, 0, 2⟩, [.parsed (some t3) (some k3)], [(t1, k1), (t2, k2)]⟩ := by
  simp [retry_failures, retryGo, pyTruthyS, h1, h2, h3, h4]

/-- C1 witness: the amended statement on a concrete 3-record journal. -/
theorem retry_failures_three_records_witness :
    retry_failures 2 [.parsed (some "A") (some "half"), .parsed (some "B") (some "daily"),
        .parsed (some "C") (some "daily")] =
      ⟨⟨2, 0, 2⟩, [.parsed (some "C") (some "daily")], [("A", "half"), ("B", "daily")]⟩ :=
  retry_failures_three_records "A" "half" "B" "daily" "C" "daily"
    (by decide) (by decide) (by decide) (by decide)

/-! ### Order lifecycle — `src/sellmanagement/order_manager.py`,
`place_and_finalize`

Each wall-clock polling loop (`while time.time() < deadline`, one poll per
0.5 s sleep) is modelled by the finite list of responses the broker gives
to its successive polls — the list length is the poll budget the deadline
allows, `none` stands for a raised exception.  Matching open orders against
the symbol (`find_orders_for_symbol`) is abstracted by the per-order
predicate `matchesOrd`; a falsy prepared-order symbol makes the match list
empty, as in the source.  Only the `status` field of the result dict is
modelled; the snapshot/cancel bookkeeping after the status is fixed never
changes it. -/

structure BrokerRun where
  positionsBefore : Option (List String)
  hasTrade : Bool
  tradeStats : List (Option String)
  reconPolls : List (Option (List ℕ))
  waitPolls : List ((Option (List ℕ)) × Option (List String))
  symbol : Option String
  matchesOrd : ℕ → Bool

/-- The `while time.time() < deadline: stat = get_trade_status(trade)` loop:
`filled`/`done` ⇒ "filled", `cancelled` ⇒ "cancelled", an exception ⇒
"error" (via the enclosing `except`), deadline ⇒ "timeout". -/
def fillLoop : List (Option String) → String
  | [] => "timeout"
  | none :: _ => "error"
  | some s :: rest =>
    if s = "filled" ∨ s = "done" then "filled"
    else if s = "cancelled" then "cancelled"
    else fillLoop rest

/-- The short reconciliation loop run when no trade handle was returned:
poll `openOrders` until a truthy list holding a matching order appears. -/
def reconLoop (b : BrokerRun) : List (Option (List ℕ)) → Option ℕ
  | [] => none
  | poll :: rest =>
    match poll with
    | none => reconLoop b rest
    | some os =>
      if os = [] then reconLoop b rest
      else
        match (if pyTruthyS b.symbol then os.filter b.matchesOrd else []) with
        | [] => reconLoop b rest
        | o :: _ => some o

/-- The wait for a matched open order to leave the open-orders list: on
disappearance, the positions before/after snapshots decide "filled" vs
"cancelled", and a missing snapshot on either side yields "done";
deadline ⇒ "timeout". -/
def waitLoop (b : BrokerRun) (o : ℕ) : List ((Option (List ℕ)) × Option (List String)) → String
  | [] => "timeout"
  | poll :: rest =>
    if o ∈ poll.1.getD [] then waitLoop b o rest
    else
      match b.positionsBefore, poll.2 with
      | some pb, some pa => if pb ≠ pa then "filled" else "cancelled"
      | some _, none => "done"
      | none, _ => "done"

/-- `place_and_finalize`'s resulting `status` as a function of the broker's
behaviour. -/
def place_and_finalize (b : BrokerRun) : String :=
  if b.hasTrade then fillLoop b.tradeStats
  else
    match reconLoop b b.reconPolls with
    | none => "placed"
    | some o => waitLoop b o b.waitPolls

/-- A broker behaviour reaching the undocumented "done" status: no trade
handle, the positions-before snapshot raised, one matching open order that
disappears on the first wait poll. -/
def doneRun : BrokerRun :=
  { positionsBefore := none, hasTrade := false, tradeStats := [],
    reconPolls := [some [5]], waitPolls := [(some [], none)],
    symbol := some "SMART:AAA", matchesOrd := fun _ => true }

lemma fillLoop_mem :
    ∀ stats, fillLoop stats ∈ (["filled", "cancelled", "timeout", "error"] : List String) := by
  intro stats
  induction stats with
  | nil => simp [fillLoop]
  | cons p rest ih =>
    match p with
    | none => simp [fillLoop]
    | some s =>
      by_cases h1 : s = "filled" ∨ s = "done"
      · simp [fillLoop, h1]
      · by_cases h2 : s = "cancelled" <;> simp [fillLoop, h1, h2] <;> simpa using ih

lemma waitLoop_mem (b : BrokerRun) (o : ℕ) :
    ∀ polls, waitLoop b o polls ∈ (["filled", "cancelled", "timeout", "done"] : List String) := by
  intro polls
  induction polls with
  | nil => simp [waitLoop]
  | cons p rest ih =>
    by_cases hm : o ∈ p.1.getD []
    · simpa [waitLoop, hm] using ih
    · match h1 : b.positionsBefore, h2 : p.2 with
      | some pb, some pa => by_cases hne : pb ≠ pa <;> simp [waitLoop, hm, h1, h2, hne]
      | some _, none => simp [waitLoop, hm, h1, h2]
      | none, _ => simp [waitLoop, hm, h1]

/-- C6 counterexample: the status "done" — outside the claimed set
{placed, filled, cancelled, timeout, error} — is reachable: with no trade
handle, a matched open order that disappears, and a failed positions
snapshot, `place_and_finalize` reports "done". -/
theorem place_and_finalize_reaches_done :
    place_and_finalize doneRun = "done" ∧
    "done" ∉ (["placed", "filled", "cancelled", "timeout", "error"] : List String) := by
  decide

/-- C6 (amended): for every behaviour of the broker connector, the status
reported by `place_and_finalize` is one of placed, filled, cancelled,
timeout, error, done — the source can also report the undocumented "done"
when a matched order disappears but a positions snapshot is unavailable. -/
theorem place_and_finalize_status_range (b : BrokerRun) :
    place_and_finalize b ∈
      (["placed", "filled", "cancelled", "timeout", "error", "done"] : List String) := by
  unfold place_and_finalize
  by_cases ht : b.hasTrade
  · have := fillLoop_mem b.tradeStats
    simp [ht] at this ⊢
    tauto
  · simp only [ht, if_false]
    match hr : reconLoop b b.reconPolls with
    | none => simp
    | some o =>
      have := waitLoop_mem b o b.waitPolls
      simp at this ⊢
      tauto

/-! ### String-order and stable-sort toolkit -/

lemma listLt_irrefl : ∀ a, listLtChars a a = false := by
  intro a
  induction a with
  | nil => rfl
  | cons c t ih => simp [listLtChars, ih]

lemma listLt_asymm : ∀ a b, listLtChars a b = true → listLtChars b a = false := by
  intro a
  induction a with
  | nil => intro b h; cases b <;> simp_all [listLtChars]
  | cons c t ih =>
    intro b h
    cases b with
    | nil => simp_all [listLtChars]
    | cons d u =>
      simp only [listLtChars] at h ⊢
      by_cases h1 : c < d
      · simp [h1, asymm h1, not_lt_of_gt h1]
      · by_cases h2 : d < c
        · simp [h1, h2] at h
        · simp [h1, h2] at h ⊢
          exact ih u h

lemma listLt_trans : ∀ a b c, listLtChars a b = true → listLtChars b c = true →
    listLtChars a c = true := by
  intro a
  induction a with
  | nil => intro b c h1 h2; cases b <;> cases c <;> simp_all [listLtChars]
  | cons x t ih =>
    intro b c h1 h2
    cases b with
    | nil => simp_all [listLtChars]
    | cons y u =>
      cases c with
      | nil => simp_all [listLtChars]
      | cons z v =>
        simp only [listLtChars] at h1 h2 ⊢
        by_cases hxy : x < y <;> by_cases hyz : y < z
        · simp [lt_trans hxy hyz]
        · by_cases hzy : z < y
          · simp [hxy, hyz, hzy] at h2
          · have : y = z := le_antisymm (not_lt.mp hzy) (not_lt.mp hyz)
            subst this
            simp [hxy]
        · by_cases hyx : y < x
          · simp [hxy, hyx] at h1
          · have : x = y := le_antisymm (not_lt.mp hyx) (not_lt.mp hxy)
            subst this
            simp [hyz]
        · by_cases hyx : y < x
          · simp [hxy, hyx] at h1
          · by_cases hzy : z < y
            · simp [hyz, hzy] at h2
            · have e1 : x = y := le_antisymm (not_lt.mp hyx) (not_lt.mp hxy)
              have e2 : y = z := le_antisymm (not_lt.mp hzy) (not_lt.mp hyz)
              subst e1; subst e2
              simp [lt_irrefl] at h1 h2 ⊢
              exact ih u v h1 h2

lemma listLt_conn : ∀ a b, listLtChars a b = false → listLtChars b a = false → a = b := by
  intro a
  induction a with
  | nil => intro b h1 h2; cases b <;> simp_all [listLtChars]
  | cons c t ih =>
    intro b h1 h2
    cases b with
    | nil => simp_all [listLtChars]
    | cons d u =>
      simp only [listLtChars] at h1 h2
      by_cases h3 : c < d
      · simp [h3] at h1
      · by_cases h4 : d < c
        · simp [h3, h4] at h2
        · have : c = d := le_antisymm (not_lt.mp h4) (not_lt.mp h3)
          subst this
          simp [lt_irrefl] at h1 h2
          rw [ih u h1 h2]

lemma strLeB_total (a b : String) : strLeB a b = true ∨ strLeB b a = true := by
  unfold strLeB strLtB
  by_cases h : listLtChars b.data a.data = true
  · right
    simp [listLt_asymm _ _ h]
  · left
    simp [Bool.not_eq_true] at h
    simp [h]

lemma strLeB_trans (a b c : String) (h1 : strLeB a b = true) (h2 : strLeB b c = true) :
    strLeB a c = true := by
  unfold strLeB strLtB at h1 h2 ⊢
  simp only [Bool.not_eq_true'] at h1 h2 ⊢
  by_cases h : listLtChars c.data a.data = true
  · by_cases hbc : listLtChars b.data c.data = true
    · have := listLt_trans _ _ _ hbc h
      rw [this] at h1
      exact absurd h1 (by simp)
    · have e := listLt_conn b.data c.data (by simpa using hbc) h2
      rw [e] at h1
      rw [h] at h1
      exact absurd h1 (by simp)
  · simpa using h

lemma strLeB_antisymm (a b : String) (h1 : strLeB a b = true) (h2 : strLeB b a = true) :
    a = b := by
  unfold strLeB strLtB at h1 h2
  simp only [Bool.not_eq_true'] at h1 h2
  have := listLt_conn _ _ h2 h1
  cases a; cases b
  simp only at this
  rw [this]

lemma mem_insertSorted {α : Type} (le : α → α → Bool) (a x : α) :
    ∀ l, x ∈ insertSorted le a l ↔ x = a ∨ x ∈ l := by
  intro l
  induction l with
  | nil => simp [insertSorted]
  | cons b t ih =>
    by_cases h : le b a <;> simp [insertSorted, h, ih] <;> tauto

lemma insertSorted_perm {α : Type} (le : α → α → Bool) (a : α) :
    ∀ l, (insertSorted le a l).Perm (a :: l) := by
  intro l
  induction l with
  | nil => exact List.Perm.refl _
  | cons b t ih =>
    by_cases h : le b a = true
    · simp only [insertSorted, h, if_true]
      exact (ih.cons b).trans (List.Perm.swap a b t)
    · have hf : le b a = false := by simpa using h
      simp [insertSorted, hf]

lemma sortByB_perm {α : Type} (le : α → α → Bool) (l : List α) :
    (sortByB le l).Perm l := by
  suffices h : ∀ (l acc : List α),
      ((l.foldl (fun acc x => insertSorted le x acc) acc)).Perm (acc ++ l) by
    simpa using h l []
  intro l
  induction l with
  | nil => intro acc; simp
  | cons a t ih =>
    intro acc
    have step : (a :: t).foldl (fun acc x => insertSorted le x acc) acc
        = t.foldl (fun acc x => insertSorted le x acc) (insertSorted le a acc) := rfl
    rw [step]
    refine ((ih _).trans ?_)
    refine (((insertSorted_perm le a acc).append_right t).trans ?_)
    exact (List.perm_middle).symm

lemma pairwise_insertSorted {α : Type} (le : α → α → Bool)
    (htrans : ∀ a b c, le a b = true → le b c = true → le a c = true)
    (htot : ∀ a b, le a b = true ∨ le b a = true) (a : α) :
    ∀ l, List.Pairwise (fun x y => le x y = true) l →
      List.Pairwise (fun x y => le x y = true) (insertSorted le a l) := by
  intro l
  induction l with
  | nil => intro _; simp [insertSorted]
  | cons b t ih =>
    intro h
    rw [List.pairwise_cons] at h
    by_cases hba : le b a = true
    · simp only [insertSorted, hba, if_true]
      rw [List.pairwise_cons]
      refine ⟨?_, ih h.2⟩
      intro x hx
      rcases (mem_insertSorted le a x t).mp hx with rfl | hxt
      · exact hba
      · exact h.1 x hxt
    · have hf : le b a = false := by simpa using hba
      simp only [insertSorted, hf, Bool.false_eq_true, if_false]
      rw [List.pairwise_cons]
      have hab : le a b = true := (htot a b).resolve_right (by simpa using hba)
      refine ⟨?_, List.pairwise_cons.mpr h⟩
      intro x hx
      rcases List.mem_cons.mp hx with rfl | hxt
      · exact hab
      · exact htrans a b x hab (h.1 x hxt)

lemma sortByB_pairwise {α : Type} (le : α → α → Bool)
    (htrans : ∀ a b c, le a b = true → le b c = true → le a c = true)
    (htot : ∀ a b, le a b = true ∨ le b a = true) (l : List α) :
    List.Pairwise (fun x y => le x y = true) (sortByB le l) := by
  suffices h : ∀ (l acc : List α), List.Pairwise (fun x y => le x y = true) acc →
      List.Pairwise (fun x y => le x y = true)
        (l.foldl (fun acc x => insertSorted le x acc) acc) by
    exact h l [] (by simp)
  intro l
  induction l with
  | nil => intro acc hacc; simpa using hacc
  | cons a t ih =>
    intro acc hacc
    exact ih _ (pairwise_insertSorted le htrans htot a acc hacc)

lemma filterMap_eq_map_of_mem {α β : Type} (f : α → Option β) (g : α → β) :
    ∀ (l : List α), (∀ a ∈ l, f a = some (g a)) → l.filterMap f = l.map g := by
  intro l
  induction l with
  | nil => intro _; rfl
  | cons a t ih =>
    intro h
    rw [List.filterMap_cons, h a (by simp), List.map_cons, ih (fun x hx => h x (by simp [hx]))]

structure BarRec where
  date : Option String
  payload : String
deriving Repr, DecidableEq

/-- One `by_date[str(d)] = r` dict update: replace in place, else append. -/
def updateByDate : List (String × BarRec) → String → BarRec → List (String × BarRec)
  | [], k, r => [(k, r)]
  | (k', r') :: t, k, r =>
    if k' = k then (k', r) :: t else (k', r') :: updateByDate t k r

/-- The `for r in ...: by_date[str(d)] = r` loops of `merge_bars` (records
without a `Date` are skipped). -/
def buildByDate (init : List (String × BarRec)) (rs : List BarRec) : List (String × BarRec) :=
  rs.foldl (fun m r => match r.date with | none => m | some d => updateByDate m d r) init

def keyLeB (a b : String × BarRec) : Bool := strLeB a.1 b.1

/-- `cache.merge_bars`: index the existing series by `Date`, let each new
bar replace the entry with its `Date`, sort by the string key ascending and
write back.  (Sorting the unique-keyed pairs and projecting equals Python's
`[by_date[k] for k in sorted(by_date.keys())]`.) -/
def merge_bars (existing newBars : List BarRec) : List BarRec :=
  (sortByB keyLeB (buildByDate (buildByDate [] existing) newBars)).map Prod.snd

/-- The `(d, r)` pairs `merge_bars` indexes: one per dated record. -/
def dlist (rs : List BarRec) : List (String × BarRec) :=
  rs.filterMap (fun r => r.date.map (fun d => (d, r)))

lemma updateByDate_fresh (k : String) (r : BarRec) :
    ∀ (m : List (String × BarRec)), k ∉ m.map Prod.fst →
      updateByDate m k r = m ++ [(k, r)] := by
  intro m
  induction m with
  | nil => intro _; rfl
  | cons p t ih =>
    intro hk
    simp only [List.map_cons, List.mem_cons] at hk
    push_neg at hk
    cases p with
    | mk k' r' =>
      simp only [updateByDate]
      rw [if_neg (by simpa using (Ne.symm hk.1)), ih hk.2]
      rfl

lemma dlist_map_fst (rs : List BarRec) :
    (dlist rs).map Prod.fst = rs.filterMap BarRec.date := by
  unfold dlist
  rw [List.map_filterMap]
  congr 1
  funext r
  cases r.date <;> simp

lemma mem_dlist {p : String × BarRec} {rs : List BarRec} :
    p ∈ dlist rs ↔ p.2 ∈ rs ∧ p.2.date = some p.1 := by
  unfold dlist
  rw [List.mem_filterMap]
  constructor
  · rintro ⟨r, hr, hp⟩
    cases hd : r.date with
    | none => rw [hd] at hp; simp at hp
    | some d =>
      rw [hd] at hp
      simp at hp
      rw [← hp]
      exact ⟨hr, by simpa using hd⟩
  · rintro ⟨hmem, hd⟩
    exact ⟨p.2, hmem, by rw [hd]; rfl⟩

lemma buildByDate_eq_append :
    ∀ (rs : List BarRec) (init : List (String × BarRec)),
      (init.map Prod.fst ++ rs.filterMap BarRec.date).Nodup →
      buildByDate init rs = init ++ dlist rs := by
  intro rs
  induction rs with
  | nil => intro init _; simp [buildByDate, dlist]
  | cons r t ih =>
    intro init hnd
    cases hd : r.date with
    | none =>
      have step : buildByDate init (r :: t) = buildByDate init t := by
        simp [buildByDate, hd]
      rw [step, ih init (by simpa [hd] using hnd)]
      simp [dlist, List.filterMap_cons, hd]
    | some d =>
      have hfresh : d ∉ init.map Prod.fst := by
        intro hmem
        rw [List.filterMap_cons, hd] at hnd
        have := (List.nodup_append.mp hnd).2.2
        exact this hmem (by simp)
      have step : buildByDate init (r :: t) = buildByDate (init ++ [(d, r)]) t := by
        simp [buildByDate, hd, updateByDate_fresh d r init hfresh]
      rw [step, ih (init ++ [(d, r)])]
      · simp [dlist, List.filterMap_cons, hd]
      · rw [List.filterMap_cons, hd] at hnd
        simpa using hnd

lemma updateByDate_present (k : String) (r : BarRec) :
    ∀ (m : List (String × BarRec)), k ∈ m.map Prod.fst → (m.map Prod.fst).Nodup →
      updateByDate m k r = m.map (fun p => if p.1 = k then (k, r) else p) := by
  intro m
  induction m with
  | nil => intro h _; simp at h
  | cons p t ih =>
    intro hk hnd
    cases p with
    | mk k' r' =>
      simp only [List.map_cons, List.nodup_cons] at hnd
      by_cases he : k' = k
      · subst he
        have hmap : ∀ q ∈ t, (fun p => if p.1 = k' then (k', r) else p) q = id q := by
          intro q hq
          have hq1 : q.1 ≠ k' := by
            intro he2
            exact hnd.1 (he2 ▸ List.mem_map_of_mem Prod.fst hq)
          simp [hq1]
        simp only [updateByDate, List.map_cons, if_true]
        congr 1
        rw [List.map_congr_left hmap, List.map_id]
      · simp only [updateByDate, if_neg he, List.map_cons]
        simp only [List.map_cons, List.mem_cons] at hk
        rcases hk with h1 | h2
        · exact absurd h1.symm he
        · rw [ih h2 hnd.2]

lemma keyLeB_trans : ∀ (a b c : String × BarRec),
    keyLeB a b = true → keyLeB b c = true → keyLeB a c = true := by
  intro a b c h1 h2
  exact strLeB_trans a.1 b.1 c.1 h1 h2

lemma keyLeB_total : ∀ (a b : String × BarRec), keyLeB a b = true ∨ keyLeB b a = true := by
  intro a b
  exact strLeB_total a.1 b.1

/-- C7: merging one new bar at `T2` into a cached series holding uniquely
dated bars, among them bars at `T1 ≠ T2`, replaces only the `T2` entry: the
`T1` record survives unchanged, every record of the result is the new bar
or an untouched old record at a date other than `T2`, every old record at a
date other than `T2` survives, the multiset of dates is unchanged, and the
result is sorted ascending by the date string. -/
theorem merge_bars_replaces_only_matching (existing : List BarRec) (nb r1 r2 : BarRec)
    (T1 T2 : String)
    (hall : ∀ r ∈ existing, r.date ≠ none)
    (hnd : (existing.filterMap BarRec.date).Nodup)
    (hr1 : r1 ∈ existing) (hd1 : r1.date = some T1)
    (hr2 : r2 ∈ existing) (hd2 : r2.date = some T2)
    (hnb : nb.date = some T2)
    (hne : T1 ≠ T2) :
    r1 ∈ merge_bars existing [nb] ∧
    nb ∈ merge_bars existing [nb] ∧
    (∀ r ∈ merge_bars existing [nb], r = nb ∨ (r ∈ existing ∧ r.date ≠ some T2)) ∧
    (∀ r ∈ existing, r.date ≠ some T2 → r ∈ merge_bars existing [nb]) ∧
    ((merge_bars existing [nb]).filterMap BarRec.date).Perm
      (existing.filterMap BarRec.date) ∧
    List.Pairwise (fun a b : BarRec => strLeB (a.date.getD "") (b.date.getD "") = true)
      (merge_bars existing [nb]) := by
  classical
  set A := dlist existing with hA
  have hbuildA : buildByDate [] existing = A := by
    have := buildByDate_eq_append existing []
    simpa using this (by simpa using hnd)
  have hAkeys : A.map Prod.fst = existing.filterMap BarRec.date := dlist_map_fst existing
  have hAnd : (A.map Prod.fst).Nodup := by rw [hAkeys]; exact hnd
  have hT2A : T2 ∈ A.map Prod.fst := by
    rw [hAkeys, List.mem_filterMap]
    exact ⟨r2, hr2, hd2⟩
  have hAcons : ∀ p ∈ A, p.2.date = some p.1 := fun p hp => (mem_dlist.mp hp).2
  -- the second build is a single dict update at key T2
  have hstep : buildByDate A [nb] = updateByDate A T2 nb := by
    simp [buildByDate, hnb]
  set B := A.map (fun p => if p.1 = T2 then (T2, nb) else p) with hB
  have hAB : buildByDate (buildByDate [] existing) [nb] = B := by
    rw [hbuildA, hstep, updateByDate_present T2 nb A hT2A hAnd]
  have hBcons : ∀ p ∈ B, p.2.date = some p.1 := by
    intro p hp
    rw [hB] at hp
    rcases List.mem_map.mp hp with ⟨q, hq, hqe⟩
    by_cases hqk : q.1 = T2
    · rw [if_pos hqk] at hqe
      rw [← hqe]
      simpa using hnb
    · rw [if_neg hqk] at hqe
      rw [← hqe]
      exact hAcons q hq
  have hperm := sortByB_perm keyLeB B
  have hpair := sortByB_pairwise keyLeB keyLeB_trans keyLeB_total B
  set S := sortByB keyLeB B with hS
  have hout : merge_bars existing [nb] = S.map Prod.snd := by
    rw [merge_bars, hAB]
  have hScons : ∀ p ∈ S, p.2.date = some p.1 := by
    intro p hp
    exact hBcons p (hperm.mem_iff.mp hp)
  constructor
  · -- r1 survives
    rw [hout]
    have h1A : (T1, r1) ∈ A := mem_dlist.mpr ⟨hr1, hd1⟩
    have h1B : (T1, r1) ∈ B := by
      rw [hB]
      refine List.mem_map.mpr ⟨(T1, r1), h1A, ?_⟩
      simp [hne]
    exact List.mem_map_of_mem Prod.snd (hperm.mem_iff.mpr h1B)
  constructor
  · -- nb present
    rw [hout]
    have h2A : (T2, r2) ∈ A := mem_dlist.mpr ⟨hr2, hd2⟩
    have h2B : (T2, nb) ∈ B := by
      rw [hB]
      exact List.mem_map.mpr ⟨(T2, r2), h2A, by simp⟩
    exact List.mem_map_of_mem Prod.snd (hperm.mem_iff.mpr h2B)
  constructor
  · -- every output record is nb or an untouched old record
    intro r hr
    rw [hout] at hr
    rcases List.mem_map.mp hr with ⟨p, hp, hpe⟩
    have hpB : p ∈ B := hperm.mem_iff.mp hp
    rw [hB] at hpB
    rcases List.mem_map.mp hpB with ⟨q, hqA, hqe⟩
    by_cases hqk : q.1 = T2
    · left
      rw [if_pos hqk] at hqe
      rw [← hpe, ← hqe]
    · right
      rw [if_neg hqk] at hqe
      have hq2 : q.2 ∈ existing := (mem_dlist.mp hqA).1
      have hqd : q.2.date = some q.1 := (mem_dlist.mp hqA).2
      rw [← hpe, ← hqe]
      refine ⟨hq2, ?_⟩
      rw [hqd]
      intro hcon
      exact hqk (by simpa using hcon)
  constructor
  · -- every untouched old record survives
    intro r hr hrd
    cases hdd : r.date with
    | none => exact absurd hdd (hall r hr)
    | some d =>
      have hdT2 : d ≠ T2 := by
        intro he
        exact hrd (by rw [hdd, he])
      have hrA : (d, r) ∈ A := mem_dlist.mpr ⟨hr, hdd⟩
      have hrB : (d, r) ∈ B := by
        rw [hB]
        refine List.mem_map.mpr ⟨(d, r), hrA, ?_⟩
        simp [hdT2]
      rw [hout]
      exact List.mem_map_of_mem Prod.snd (hperm.mem_iff.mpr hrB)
  constructor
  · -- the multiset of dates is unchanged
    rw [hout]
    have h1 : (S.map Prod.snd).filterMap BarRec.date = S.map Prod.fst := by
      rw [List.filterMap_map]
      exact filterMap_eq_map_of_mem _ _ S hScons
    rw [h1]
    have h2 : (S.map Prod.fst).Perm (B.map Prod.fst) := hperm.map Prod.fst
    have h3 : B.map Prod.fst = A.map Prod.fst := by
      rw [hB, List.map_map]
      apply List.map_congr_left
      intro p _
      by_cases hpk : p.1 = T2 <;> simp [hpk]
    rw [← hAkeys]
    rw [h3] at h2
    exact h2
  · -- sorted ascending by date string
    rw [hout]
    rw [List.pairwise_map]
    refine List.Pairwise.imp_of_mem ?_ hpair
    intro p q hp hq hle
    have hpd := hScons p hp
    have hqd := hScons q hq
    rw [hpd, hqd]
    simpa [Option.getD] using hle

/-- C7 witness: a concrete two-bar series with a replacement at `T2`. -/
theorem merge_bars_replaces_only_matching_witness :
    (⟨some "T1", "a"⟩ : BarRec) ∈
        merge_bars [⟨some "T1", "a"⟩, ⟨some "T2", "b"⟩] [⟨some "T2", "c"⟩] ∧
    (⟨some "T2", "c"⟩ : BarRec) ∈
        merge_bars [⟨some "T1", "a"⟩, ⟨some "T2", "b"⟩] [⟨some "T2", "c"⟩] :=
  have H := merge_bars_replaces_only_matching
    [⟨some "T1", "a"⟩, ⟨some "T2", "b"⟩] ⟨some "T2", "c"⟩ ⟨some "T1", "a"⟩
    ⟨some "T2", "b"⟩ "T1" "T2" (by decide) (by decide) (by decide) (by decide)
    (by decide) (by decide) (by decide) (by decide)
  ⟨H.1, H.2.1⟩

/-! ### Sequential backfill — `src/sellmanagement/downloader.py`,
`_sequential_backfill_halfhours` -/

/-- The key the dedupe pass uses: the bar's `Date` when present, else the
record's string form `str(r)` (modelled as a tagged payload). -/
def keyOfRec (r : BarRec) : String :=
  match r.date with
  | some d => d
  | none => "rec:" ++ r.payload

/-- Python `min` over a nonempty list of strings. -/
def pyMinString (s : String) (t : List String) : String :=
  t.foldl (fun cur x => if strLtB x cur then x else cur) s

/-- The backfill `while len(out) < target and attempts < max_iterations`
loop.  `pages k` is what the connector's `rows_fn` returns to the `k`-th
request (`none` = raised, `some []` = empty page, both break); the `end`
cursor is recomputed as the minimum truthy `Date` of the accumulated rows.
Returns (number of requests made, accumulated rows). -/
def backfillGo (pages : ℕ → Option (List BarRec)) (target : ℕ) :
    ℕ → ℕ → List BarRec → Option String → ℕ × List BarRec
  | 0, attempts, out, _ => (attempts, out)
  | fuel + 1, attempts, out, e =>
    if target ≤ out.length then (attempts, out)
    else
      match pages attempts with
      | none => (attempts + 1, out)
      | some [] => (attempts + 1, out)
      | some (r :: rs) =>
        let out' := out ++ r :: rs
        let dates := (out'.filterMap BarRec.date).filter (fun d => d ≠ "")
        let e' := match dates with
          | [] => e
          | d :: ds => some (pyMinString d ds)
        backfillGo pages target fuel (attempts + 1) out' e'

/-- The final `seen`-set dedupe pass: first occurrence of each key wins. -/
def dedupeByKey (seen : List String) : List BarRec → List BarRec
  | [] => []
  | r :: rest =>
    let k := keyOfRec r
    if k ∈ seen then dedupeByKey seen rest
    else r :: dedupeByKey (k :: seen) rest

/-- `_sequential_backfill_halfhours(ib_client, token, target_bars)`:
capped page loop, dedupe by `Date` keeping first occurrences, then the
Python slice `merged[-target_bars:]`.  Returns (requests made, result). -/
def sequential_backfill_halfhours (pages : ℕ → Option (List BarRec)) (target : ℕ) :
    ℕ × List BarRec :=
  let cap := max 10 (target / 31 + 2)
  let res := backfillGo pages target cap 0 [] none
  (res.1, pyTakeLast target (dedupeByKey [] res.2))

def pad3 (n : ℕ) : String :=
  String.mk [Char.ofNat (48 + n / 100), Char.ofNat (48 + (n / 10) % 10), Char.ofNat (48 + n % 10)]

def mkPageBar (n : ℕ) : BarRec := ⟨some (pad3 n), ""⟩

/-- Newest page: dates 100..130 (ascending within the page). -/
def page1 : List BarRec := (List.range 31).map (fun i => mkPageBar (100 + i))

/-- Older page: dates 069..099. -/
def page2 : List BarRec := (List.range 31).map (fun i => mkPageBar (69 + i))

def pages40 : ℕ → Option (List BarRec)
  | 0 => some page1
  | 1 => some page2
  | _ => some []

lemma backfillGo_fst_le (pages : ℕ → Option (List BarRec)) (target : ℕ) :
    ∀ (fuel attempts : ℕ) (out : List BarRec) (e : Option String),
      (backfillGo pages target fuel attempts out e).1 ≤ attempts + fuel := by
  intro fuel
  induction fuel with
  | zero => intro a o e; simp [backfillGo]
  | succ n ih =>
    intro a o e
    unfold backfillGo
    by_cases h : target ≤ o.length
    · simp [h]
    · simp only [h, if_false]
      cases hp : pages a with
      | none => simp
      | some l =>
        cases l with
        | nil => simp
        | cons r rs =>
          simp only
          have := ih (a + 1) (o ++ r :: rs)
            (match ((o ++ r :: rs).filterMap BarRec.date).filter (fun d => d ≠ "") with
              | [] => e
              | d :: ds => some (pyMinString d ds))
          omega

lemma backfillGo_no_empty_mid (pages : ℕ → Option (List BarRec)) (target : ℕ) :
    ∀ (fuel attempts : ℕ) (out : List BarRec) (e : Option String) (k : ℕ),
      attempts ≤ k → k + 1 < (backfillGo pages target fuel attempts out e).1 →
      ∃ l, pages k = some l ∧ l ≠ [] := by
  intro fuel
  induction fuel with
  | zero =>
    intro a o e k hak hk
    simp [backfillGo] at hk
    omega
  | succ n ih =>
    intro a o e k hak hk
    unfold backfillGo at hk
    by_cases h : target ≤ o.length
    · simp [h] at hk; omega
    · simp only [h, if_false] at hk
      cases hp : pages a with
      | none => rw [hp] at hk; simp at hk; omega
      | some l =>
        cases l with
        | nil => rw [hp] at hk; simp at hk; omega
        | cons r rs =>
          rw [hp] at hk
          simp only at hk
          by_cases hka : k = a
          · exact ⟨r :: rs, hka ▸ hp, by simp⟩
          · exact ih (a + 1) _ _ k (by omega) hk

lemma backfillGo_target_zero (pages : ℕ → Option (List BarRec)) :
    ∀ (fuel attempts : ℕ) (e : Option String),
      backfillGo pages 0 fuel attempts [] e = (attempts, []) := by
  intro fuel
  cases fuel with
  | zero => intro a e; simp [backfillGo]
  | succ n => intro a e; simp [backfillGo]

lemma dedupeByKey_nodup :
    ∀ (l : List BarRec) (seen : List String),
      ((dedupeByKey seen l).map keyOfRec).Nodup ∧
      ∀ k ∈ (dedupeByKey seen l).map keyOfRec, k ∉ seen := by
  intro l
  induction l with
  | nil => intro seen; simp [dedupeByKey]
  | cons r rest ih =>
    intro seen
    by_cases h : keyOfRec r ∈ seen
    · simpa [dedupeByKey, h] using ih seen
    · have hrec := ih (keyOfRec r :: seen)
      simp only [dedupeByKey, h, if_false, List.map_cons, List.nodup_cons]
      refine ⟨⟨?_, hrec.1⟩, ?_⟩
      · intro hmem
        exact (hrec.2 _ hmem) (by simp)
      · intro k hk
        rcases List.mem_cons.mp hk with rfl | hk2
        · exact h
        · intro hks
          exact (hrec.2 k hk2) (by simp [hks])

lemma pyTakeLast_sublist {α : Type} (n : ℕ) (xs : List α) :
    (pyTakeLast n xs).Sublist xs := by
  unfold pyTakeLast
  by_cases h : n = 0
  · simp [h]
  · simp [h, List.drop_sublist]

lemma pyTakeLast_length_le {α : Type} (n : ℕ) (xs : List α) (hn : n ≠ 0) :
    (pyTakeLast n xs).length ≤ n := by
  unfold pyTakeLast
  simp [hn]
  omega

/-- C8 (amended): for every connector behaviour and target, the backfill
performs at most `max(10, target/31 + 2)` page requests, every request
other than the last answered a nonempty page (so it stops as soon as a page
is empty or raises), returns at most `target` bars, and the result is
deduplicated by timestamp (first-seen kept).  The claim's "most-recent bars
kept" clause fails — see the counterexample. -/
theorem backfill_bounded (pages : ℕ → Option (List BarRec)) (target : ℕ) :
    (sequential_backfill_halfhours pages target).1 ≤ max 10 (target / 31 + 2) ∧
    (∀ k, k + 1 < (sequential_backfill_halfhours pages target).1 →
      ∃ l, pages k = some l ∧ l ≠ []) ∧
    (sequential_backfill_halfhours pages target).2.length ≤ target ∧
    ((sequential_backfill_halfhours pages target).2.map keyOfRec).Nodup := by
  refine ⟨?_, ?_, ?_, ?_⟩
  · have := backfillGo_fst_le pages target (max 10 (target / 31 + 2)) 0 [] none
    simpa [sequential_backfill_halfhours] using this
  · intro k hk
    refine backfillGo_no_empty_mid pages target (max 10 (target / 31 + 2)) 0 [] none k
      (by omega) ?_
    simpa [sequential_backfill_halfhours] using hk
  · by_cases h0 : target = 0
    · subst h0
      simp [sequential_backfill_halfhours, backfillGo_target_zero, pyTakeLast, dedupeByKey]
    · show (pyTakeLast target (dedupeByKey []
          (backfillGo pages target (max 10 (target / 31 + 2)) 0 [] none).2)).length ≤ target
      exact pyTakeLast_length_le target _ h0
  · show ((pyTakeLast target (dedupeByKey []
        (backfillGo pages target (max 10 (target / 31 + 2)) 0 [] none).2)).map keyOfRec).Nodup
    exact List.Nodup.sublist ((pyTakeLast_sublist _ _).map keyOfRec)
      (dedupeByKey_nodup _ []).1

/-- C8 counterexample: with a connector answering 31 bars at dates 100..130
(page 1, the most recent) and then 31 bars at dates 069..099 (page 2,
older), and `target = 40`, the returned slice `merged[-40:]` keeps the bar
dated "069" but drops the fetched, more recent bar dated "100" — the result
is not the `target` most-recent bars. -/
theorem backfill_not_most_recent :
    (⟨some "069", ""⟩ : BarRec) ∈ (sequential_backfill_halfhours pages40 40).2 ∧
    (⟨some "100", ""⟩ : BarRec) ∉ (sequential_backfill_halfhours pages40 40).2 ∧
    (⟨some "100", ""⟩ : BarRec) ∈ page1 ∧
    strLtB "069" "100" = true := by
  decide

/-- C8 witness: the amended statement instantiated on the two-page
connector — the request count is 2 (≤ 10), request 0 answered a nonempty
page, and the result is 40 bars with distinct keys. -/
theorem backfill_bounded_witness :
    (∃ l, pages40 0 = some l ∧ l ≠ []) ∧
    (sequential_backfill_halfhours pages40 40).2.length ≤ 40 :=
  ⟨(backfill_bounded pages40 40).2.1 0 (by decide),
   (backfill_bounded pages40 40).2.2.1⟩

/-! ### Timestamps — model of `datetime.fromisoformat`

The aggregators parse ISO strings `YYYY-MM-DD[( |T)HH:MM[:SS]]` (the shapes
the cached bars carry); other shapes — offsets, microseconds — are treated
as unparsable, which both models handle through the code's fallback paths.
Component ranges are validated as CPython does; day-in-month is not. -/

structure DT where
  y : ℕ
  mo : ℕ
  d : ℕ
  hh : ℕ
  mi : ℕ
  ss : ℕ
deriving Repr, DecidableEq

/-- Monotone encoding of a timestamp (components are < 100 after parsing). -/
def DT.key (t : DT) : ℕ :=
  ((((t.y * 100 + t.mo) * 100 + t.d) * 100 + t.hh) * 100 + t.mi) * 100 + t.ss

/-- Python `dt1 <= dt2`. -/
def dtLeB (a b : DT) : Bool := a.key ≤ b.key

/-- `dt.replace(minute=0, second=0, microsecond=0)`. -/
def DT.hourStart (t : DT) : DT := { t with mi := 0, ss := 0 }

def pad2 (n : ℕ) : String :=
  String.mk [Char.ofNat (48 + (n / 10) % 10), Char.ofNat (48 + n % 10)]

def pad4 (n : ℕ) : String :=
  String.mk [Char.ofNat (48 + (n / 1000) % 10), Char.ofNat (48 + (n / 100) % 10),
    Char.ofNat (48 + (n / 10) % 10), Char.ofNat (48 + n % 10)]

/-- `dt.isoformat()` for a whole-second timestamp. -/
def DT.isoStr (t : DT) : String :=
  pad4 t.y ++ "-" ++ pad2 t.mo ++ "-" ++ pad2 t.d ++ "T" ++
    pad2 t.hh ++ ":" ++ pad2 t.mi ++ ":" ++ pad2 t.ss

def digitVal (c : Char) : Option ℕ :=
  if c.isDigit then some (c.toNat - 48) else none

def num2 (a b : Char) : Option ℕ :=
  match digitVal a, digitVal b with
  | some x, some y => some (10 * x + y)
  | _, _ => none

def num4 (a b c d : Char) : Option ℕ :=
  match num2 a b, num2 c d with
  | some x, some y => some (100 * x + y)
  | _, _ => none

def mkDT (y mo d hh mi ss : ℕ) : Option DT :=
  if 1 ≤ mo ∧ mo ≤ 12 ∧ 1 ≤ d ∧ d ≤ 31 ∧ hh ≤ 23 ∧ mi ≤ 59 ∧ ss ≤ 59 then
    some ⟨y, mo, d, hh, mi, ss⟩
  else none

def mk2 (oy omo od ohh omi oss : Option ℕ) : Option DT :=
  match oy, omo, od, ohh, omi, oss with
  | some y, some mo, some d, some hh, some mi, some ss => mkDT y mo d hh mi ss
  | _, _, _, _, _, _ => none

/-- `datetime.fromisoformat` on the supported shapes. -/
def pyFromIso (s : String) : Option DT :=
  match s.data with
  | [y1, y2, y3, y4, '-', m1, m2, '-', d1, d2] =>
    mk2 (num4 y1 y2 y3 y4) (num2 m1 m2) (num2 d1 d2) (some 0) (some 0) (some 0)
  | [y1, y2, y3, y4, '-', m1, m2, '-', d1, d2, sep, h1, h2, ':', n1, n2] =>
    if sep = 'T' ∨ sep = ' ' then
      mk2 (num4 y1 y2 y3 y4) (num2 m1 m2) (num2 d1 d2) (num2 h1 h2) (num2 n1 n2) (some 0)
    else none
  | [y1, y2, y3, y4, '-', m1, m2, '-', d1, d2, sep, h1, h2, ':', n1, n2, ':', s1, s2] =>
    if sep = 'T' ∨ sep = ' ' then
      mk2 (num4 y1 y2 y3 y4) (num2 m1 m2) (num2 d1 d2) (num2 h1 h2) (num2 n1 n2) (num2 s1 s2)
    else none
  | _ => none

/-- Python `s[:n]`. -/
def strTake (s : String) (n : ℕ) : String := String.mk (s.data.take n)

example : pyFromIso "2025-01-01T09:30:00" = some ⟨2025, 1, 1, 9, 30, 0⟩ := by decide
example : pyFromIso "2025-01-01 09:30" = some ⟨2025, 1, 1, 9, 30, 0⟩ := by decide
example : pyFromIso "2025-13-01" = none := by decide
example : pyFromIso "garbage" = none := by decide
example : (⟨2025, 1, 1, 9, 30, 0⟩ : DT).hourStart.isoStr = "2025-01-01T09:00:00" := by decide

/-! ### Aggregators — `src/sellmanagement/aggregator.py` (`halfhours_to_hours`)
and `src/sellmanagement/aggregation.py` (`aggregate_halfhours_to_hours`) -/

/-- An input half-hour bar dict: any field may be missing/None. -/
structure PBar where
  date : Option String
  openF : Option ℚ
  highF : Option ℚ
  lowF : Option ℚ
  closeF : Option ℚ
  volF : Option ℚ
deriving DecidableEq

/-- An output hourly bar dict.  `aggregation.py` writes the volume as a
Python `int` and `aggregator.py` as a float; both are modelled as the ℚ
value they compare equal to. -/
structure HBar where
  date : String
  openF : Option ℚ
  highF : Option ℚ
  lowF : Option ℚ
  closeF : Option ℚ
  volF : ℚ
deriving DecidableEq

/-- Python dict assignment `m[k] = v`: replace in place or append. -/
def updateAssoc {α : Type} : List (String × α) → String → α → List (String × α)
  | [], k, v => [(k, v)]
  | (k', v') :: t, k, v =>
    if k' = k then (k', v) :: t else (k', v') :: updateAssoc t k v

/-- `seen[str(d)] = b` over the input (bars without a `Date` are skipped):
last value wins, first-insertion position kept. -/
def buildSeen (bars : List PBar) : List (String × PBar) :=
  bars.foldl (fun m b => match b.date with | none => m | some d => updateAssoc m d b) []

/-- `groups.setdefault(k, []).append(b)` keyed by a timestamp. -/
def appendGroup {α : Type} : List (DT × List α) → DT → α → List (DT × List α)
  | [], k, b => [(k, [b])]
  | (k', bs) :: t, k, b =>
    if k' = k then (k', bs ++ [b]) :: t else (k', bs) :: appendGroup t k b

def lookupGroup {α : Type} : List (DT × List α) → DT → Option (List α)
  | [], _ => none
  | (k', bs) :: t, k => if k' = k then some bs else lookupGroup t k

/-- `aggregator.py`'s per-string parse: `fromisoformat(s)`, then
`fromisoformat(s[:19])`, then `fromisoformat(s[:16] + ":00")`. -/
def parseWithFallback (s : String) : Option DT :=
  match pyFromIso s with
  | some dt => some dt
  | none =>
    match pyFromIso (strTake s 19) with
    | some dt => some dt
    | none => pyFromIso (strTake s 16 ++ ":00")

/-- Python `max` over a nonempty ℚ list (first element as seed). -/
def foldMaxQ (x : ℚ) (l : List ℚ) : ℚ := l.foldl max x

/-- Python `min` over a nonempty ℚ list. -/
def foldMinQ (x : ℚ) (l : List ℚ) : ℚ := l.foldl min x

/-- The last element of a nonempty bucket (`items[-1]`). -/
def lastBar (i : PBar) : List PBar → PBar
  | [] => i
  | j :: js => lastBar j js

/-- The hourly bar `aggregator.py` emits for one bucket (`opens[0]`,
`max(highs)`, `min(lows)`, `closes[-1]`, `sum(volumes)` over
float-coerced `x or 0.0` values). -/
def mkHourBar2 (k : DT) (i : PBar) (is : List PBar) : HBar :=
  let bucket := i :: is
  let volumes := bucket.map (fun x => pyOrQ x.volF 0)
  { date := k.isoStr,
    openF := some (pyOrQ i.openF 0),
    highF := some (foldMaxQ (pyOrQ i.highF 0) (is.map (fun x => pyOrQ x.highF 0))),
    lowF := some (foldMinQ (pyOrQ i.lowF 0) (is.map (fun x => pyOrQ x.lowF 0))),
    closeF := some (pyOrQ (lastBar i is).closeF 0),
    volF := volumes.sum }

/-- The pipeline of `halfhours_to_hours` applied to the dedupe dict: parse
with fallbacks, sort all bars by timestamp, group by hour start, emit
buckets in sorted key order. -/
def h2hCore (seen : List (String × PBar)) : List HBar :=
  let parsed := seen.filterMap (fun p => (parseWithFallback p.1).map (fun dt => (dt, p.2)))
  let sortedPairs := sortByB (fun a b : DT × PBar => dtLeB a.1 b.1) parsed
  let groups := sortedPairs.foldl (fun g p => appendGroup g p.1.hourStart p.2) []
  let keys := sortByB dtLeB (groups.map Prod.fst)
  keys.filterMap (fun k =>
    match lookupGroup groups k with
    | none => none
    | some [] => none
    | some (i :: is) => some (mkHourBar2 k i is))

/-- `aggregator.halfhours_to_hours`: dedupe by exact `Date` string (last
wins), then the bucketing pipeline. -/
def halfhours_to_hours : List PBar → List HBar
  | [] => []
  | b0 :: brest => h2hCore (buildSeen (b0 :: brest))

/-- The hourly bar `aggregation.py` emits for one bucket: the raw
`items[0].get("Open")` / `items[-1].get("Close")` (possibly None),
`max(high or 0)`, `min(low or 0)`, and the `int(...)`-truncated volume
sum. -/
def mkHourBar1 (k : DT) (i : PBar) (is : List PBar) : HBar :=
  let bucket := i :: is
  { date := k.isoStr,
    openF := i.openF,
    highF := some (foldMaxQ (pyOrQ i.highF 0) (is.map (fun x => pyOrQ x.highF 0))),
    lowF := some (foldMinQ (pyOrQ i.lowF 0) (is.map (fun x => pyOrQ x.lowF 0))),
    closeF := (lastBar i is).closeF,
    volF := (((bucket.map (fun x => pyInt (pyOrQ x.volF 0))).sum : ℤ) : ℚ) }

/-- `sorted(items, key=fromisoformat(Date))` with the string-key fallback
when any date fails to parse. -/
def sortItems (items : List PBar) : List PBar :=
  if items.all (fun x => (pyFromIso (x.date.getD "")).isSome) then
    sortByB (fun a b : PBar =>
      dtLeB ((pyFromIso (a.date.getD "")).getD ⟨0, 0, 0, 0, 0, 0⟩)
        ((pyFromIso (b.date.getD "")).getD ⟨0, 0, 0, 0, 0, 0⟩)) items
  else
    sortByB (fun a b : PBar => strLeB (a.date.getD "") (b.date.getD "")) items

/-- The head/tail `Date` of a bar list, parsed as the reversal check of
`aggregate_halfhours_to_hours` does (`fromisoformat(str(d0s)) if d0s`). -/
def endDateParsed (ob : Option PBar) : Option DT :=
  match ob with
  | none => none
  | some b =>
    match b.date with
    | none => none
    | some s => if s = "" then none else pyFromIso s

/-- `aggregation.aggregate_halfhours_to_hours`: optionally reverse (when
the first bar parses later than the last), group each truthy-dated bar by
hour start (direct parse) or by the `s[:13] + ":00:00"` fallback key, then
emit buckets in sorted key order, each bucket sorted by its dates.  No
deduplication happens.  (The source's per-bucket `except: continue` can
only fire on non-numeric field types, which the model's ℚ fields
exclude.) -/
def aggregate_halfhours_to_hours : List PBar → List HBar
  | [] => []
  | h0 :: hrest =>
  let halfhours := h0 :: hrest
  let rev :=
    match endDateParsed halfhours.head?, endDateParsed halfhours.getLast? with
    | some a, some b => decide (b.key < a.key)
    | _, _ => false
  let bars := if rev then halfhours.reverse else halfhours
  let groups := bars.foldl (fun g b =>
    match b.date with
    | none => g
    | some s =>
      if s = "" then g else
      match pyFromIso s with
      | some dt => appendGroup g dt.hourStart b
      | none =>
        match pyFromIso (strTake s 13 ++ ":00:00") with
        | some fdt => appendGroup g fdt b
        | none => g) []
  let sortedGroups := sortByB (fun a b : DT × List PBar => dtLeB a.1 b.1) groups
  sortedGroups.filterMap (fun p =>
    match sortItems p.2 with
    | [] => none
    | i :: is => some (mkHourBar1 p.1 i is))


/-- A well-formed half-hour bar; used twice to exhibit the duplicate-handling
difference between the two aggregators. -/
def dupBar : PBar := ⟨some "2025-01-01T09:00:00", some 1, some 2, some 1, some 2, some 10⟩

set_option maxHeartbeats 1000000 in
/-- C5 counterexample: `aggregate_halfhours_to_hours` (aggregation.py) does
not deduplicate by timestamp — feeding the same bar twice doubles the bucket
volume (20 instead of 10), so its output is not a pure function of the input
set. -/
theorem aggregation_counts_duplicates :
    aggregate_halfhours_to_hours [dupBar, dupBar] ≠ aggregate_halfhours_to_hours [dupBar] := by
  have hp : pyFromIso "2025-01-01T09:00:00" = some ⟨2025, 1, 1, 9, 0, 0⟩ := by decide
  have ht : Int.tdiv 10 1 = 10 := by decide
  have hne : ("2025-01-01T09:00:00" : String) ≠ "" := by decide
  norm_num [hne, aggregate_halfhours_to_hours, endDateParsed, dupBar, hp, DT.key, DT.hourStart,
    appendGroup, sortByB, insertSorted, dtLeB, sortItems, mkHourBar1, pyOrQ, pyInt,
    foldMaxQ, foldMinQ, ht, Rat.num_ofNat, Rat.den_ofNat, lastBar,
    List.filterMap_cons, List.filterMap_nil, List.forall_mem_cons, List.forall_mem_ne]

set_option maxHeartbeats 1000000 in
/-- C10 counterexample: the two aggregation implementations disagree — on a
duplicated input bar `halfhours_to_hours` (aggregator.py) deduplicates and
reports volume 10 while `aggregate_halfhours_to_hours` (aggregation.py)
counts it twice, volume 20. -/
theorem aggregators_disagree :
    halfhours_to_hours [dupBar, dupBar] ≠ aggregate_halfhours_to_hours [dupBar, dupBar] := by
  have hp : pyFromIso "2025-01-01T09:00:00" = some ⟨2025, 1, 1, 9, 0, 0⟩ := by decide
  have hpf : parseWithFallback "2025-01-01T09:00:00" = some ⟨2025, 1, 1, 9, 0, 0⟩ := by decide
  have hiso : (⟨2025, 1, 1, 9, 0, 0⟩ : DT).isoStr = "2025-01-01T09:00:00" := by decide
  have ht : Int.tdiv 10 1 = 10 := by decide
  have hne : ("2025-01-01T09:00:00" : String) ≠ "" := by decide
  have e1 : halfhours_to_hours [dupBar, dupBar] =
      [⟨"2025-01-01T09:00:00", some 1, some 2, some 1, some 2, 10⟩] := by
    simp only [halfhours_to_hours, h2hCore, dupBar, buildSeen, List.foldl_cons,
      List.foldl_nil, updateAssoc, if_pos, List.filterMap_cons, List.filterMap_nil, hpf,
      Option.map_some]
    norm_num [sortByB, insertSorted, List.foldl_cons, List.foldl_nil, appendGroup,
      DT.hourStart, lookupGroup, dtLeB, DT.key, mkHourBar2, pyOrQ, foldMaxQ, foldMinQ,
      lastBar, hiso, List.filterMap_cons, List.filterMap_nil]
  have e2 : aggregate_halfhours_to_hours [dupBar, dupBar] =
      [⟨"2025-01-01T09:00:00", some 1, some 2, some 1, some 2, 20⟩] := by
    norm_num [hne, aggregate_halfhours_to_hours, endDateParsed, dupBar, hp, DT.key,
      DT.hourStart, appendGroup, sortByB, insertSorted, dtLeB, sortItems, mkHourBar1,
      pyOrQ, pyInt, foldMaxQ, foldMinQ, ht, Rat.num_ofNat, Rat.den_ofNat, lastBar, hiso,
      List.filterMap_cons, List.filterMap_nil, List.forall_mem_cons]
  rw [e1, e2]
  intro h
  have := List.cons.injEq _ _ _ _ ▸ h
  simp [HBar.mk.injEq] at h

lemma updateAssoc_keys {α : Type} (k : String) (v : α) :
    ∀ m : List (String × α), (updateAssoc m k v).map Prod.fst =
      if k ∈ m.map Prod.fst then m.map Prod.fst else m.map Prod.fst ++ [k] := by
  intro m
  induction m with
  | nil => simp [updateAssoc]
  | cons p t ih =>
    by_cases h : p.1 = k
    · cases p with
      | mk k' v' =>
        simp only at h
        subst h
        simp [updateAssoc]
    · cases p with
      | mk k' v' =>
        simp only at h
        simp only [updateAssoc, if_neg h, List.map_cons, ih]
        by_cases h2 : k ∈ t.map Prod.fst
        · simp [h2, Ne.symm h]
        · simp [h2, Ne.symm h]

lemma mem_updateAssoc {α : Type} {q : String × α} (k : String) (v : α) :
    ∀ m : List (String × α), q ∈ updateAssoc m k v → q = (k, v) ∨ q ∈ m := by
  intro m
  induction m with
  | nil => simp [updateAssoc]
  | cons p t ih =>
    intro hq
    cases p with
    | mk k' v' =>
      by_cases h : k' = k
      · subst h
        simp only [updateAssoc, if_pos rfl] at hq
        rcases List.mem_cons.mp hq with rfl | hq2
        · left; rfl
        · right; simp [hq2]
      · simp only [updateAssoc, if_neg h] at hq
        rcases List.mem_cons.mp hq with rfl | hq2
        · right; simp
        · rcases ih hq2 with h3 | h3
          · left; exact h3
          · right; simp [h3]

lemma updateAssoc_key_grow {α : Type} (k k' : String) (v : α) :
    ∀ m : List (String × α), k' ∈ m.map Prod.fst ∨ k' = k →
      k' ∈ (updateAssoc m k v).map Prod.fst := by
  intro m h
  rw [updateAssoc_keys]
  by_cases h2 : k ∈ m.map Prod.fst
  · rcases h with h3 | h3
    · simpa [h2] using h3
    · subst h3; simpa [h2] using h2
  · rcases h with h3 | h3
    · simp [h2, h3]
    · subst h3; simp [h2]

/-- The dict `buildSeen` builds has pairwise-distinct keys, each value is a
bar of the input whose `Date` is its key, and every date of the input
occurs among the keys. -/
lemma buildSeen_invariants (l : List PBar) :
    ((buildSeen l).map Prod.fst).Nodup ∧
    (∀ p ∈ buildSeen l, p.2.date = some p.1 ∧ p.2 ∈ l) ∧
    (∀ b ∈ l, ∀ s, b.date = some s → s ∈ (buildSeen l).map Prod.fst) := by
  suffices h : ∀ (l : List PBar) (acc : List (String × PBar)),
      (acc.map Prod.fst).Nodup →
      (∀ p ∈ acc, p.2.date = some p.1) →
      ((l.foldl (fun m b => match b.date with | none => m | some d => updateAssoc m d b) acc).map
          Prod.fst).Nodup ∧
      (∀ p ∈ l.foldl (fun m b => match b.date with | none => m | some d => updateAssoc m d b) acc,
        p.2.date = some p.1 ∧ (p.2 ∈ l ∨ p ∈ acc)) ∧
      (∀ b ∈ l, ∀ s, b.date = some s →
        s ∈ (l.foldl (fun m b => match b.date with | none => m | some d => updateAssoc m d b)
          acc).map Prod.fst) by
    have h2 := h l [] (by simp) (by simp)
    refine ⟨h2.1, ?_, h2.2.2⟩
    intro p hp
    have := h2.2.1 p hp
    exact ⟨this.1, this.2.resolve_right (by simp)⟩
  intro l
  induction l with
  | nil =>
    intro acc h1 h2
    refine ⟨by simpa using h1, ?_, by simp⟩
    intro p hp
    simp only [List.foldl_nil] at hp
    exact ⟨h2 p hp, Or.inr hp⟩
  | cons b t ih =>
    intro acc h1 h2
    cases hd : b.date with
    | none =>
      have step : ∀ m : List (String × PBar),
          (b :: t).foldl (fun m b => match b.date with | none => m | some d => updateAssoc m d b) m
            = t.foldl (fun m b => match b.date with | none => m | some d => updateAssoc m d b) m := by
        intro m; simp [hd]
      rw [step]
      have h3 := ih acc h1 h2
      refine ⟨h3.1, ?_, ?_⟩
      · intro p hp
        have := h3.2.1 p hp
        exact ⟨this.1, this.2.imp_left (by simp; tauto)⟩
      · intro b' hb' s hs
        rcases List.mem_cons.mp hb' with rfl | hb2
        · rw [hd] at hs; cases hs
        · exact h3.2.2 b' hb2 s hs
    | some d =>
      have step : ∀ m : List (String × PBar),
          (b :: t).foldl (fun m b => match b.date with | none => m | some d => updateAssoc m d b) m
            = t.foldl (fun m b => match b.date with | none => m | some d => updateAssoc m d b)
                (updateAssoc m d b) := by
        intro m; simp [hd]
      rw [step]
      have hknd : ((updateAssoc acc d b).map Prod.fst).Nodup := by
        rw [updateAssoc_keys]
        by_cases h4 : d ∈ acc.map Prod.fst
        · simpa [h4] using h1
        · simp only [h4, if_false]
          rw [List.nodup_append]
          refine ⟨h1, by simp, ?_⟩
          intro a ha hb
          simp only [List.mem_singleton] at hb
          subst hb
          exact h4 ha
      have hcons : ∀ p ∈ updateAssoc acc d b, p.2.date = some p.1 := by
        intro p hp
        rcases mem_updateAssoc d b acc hp with rfl | hp2
        · simpa using hd
        · exact h2 p hp2
      have h3 := ih (updateAssoc acc d b) hknd hcons
      refine ⟨h3.1, ?_, ?_⟩
      · intro p hp
        have := h3.2.1 p hp
        refine ⟨this.1, ?_⟩
        rcases this.2 with h5 | h5
        · left; simp [h5]
        · rcases mem_updateAssoc d b acc h5 with rfl | h6
          · left; simp
          · right; exact h6
      · intro b' hb' s hs
        rcases List.mem_cons.mp hb' with rfl | hb2
        · -- the key d enters the dict and keys only grow afterwards
          rw [hd] at hs
          have hds : d = s := by injection hs
          subst hds
          suffices hgrow : ∀ (t : List PBar) (m : List (String × PBar)) (k : String),
              k ∈ m.map Prod.fst →
              k ∈ ((t.foldl (fun m b => match b.date with | none => m | some d => updateAssoc m d b)
                m)).map Prod.fst by
            exact hgrow t (updateAssoc acc d b') d
              (updateAssoc_key_grow d d b' acc (Or.inr rfl))
          intro t
          induction t with
          | nil => intro m k hk; simpa using hk
          | cons c cs ih2 =>
            intro m k hk
            cases hcd : c.date with
            | none => simpa [hcd] using ih2 m k hk
            | some dc =>
              have : k ∈ (updateAssoc m dc c).map Prod.fst :=
                updateAssoc_key_grow dc k c m (Or.inl hk)
              simpa [hcd] using ih2 (updateAssoc m dc c) k this
        · exact h3.2.2 b' hb2 s hs

lemma updateAssoc_fresh {α : Type} (k : String) (v : α) :
    ∀ m : List (String × α), k ∉ m.map Prod.fst → updateAssoc m k v = m ++ [(k, v)] := by
  intro m
  induction m with
  | nil => intro _; rfl
  | cons p t ih =>
    intro hk
    simp only [List.map_cons, List.mem_cons] at hk
    push_neg at hk
    cases p with
    | mk k' v' =>
      simp only [updateAssoc]
      rw [if_neg (by simpa using (Ne.symm hk.1)), ih hk.2]
      rfl

/-- Rebuilding the dict from its own values reproduces it. -/
lemma buildSeen_self (s : List (String × PBar)) (hnd : (s.map Prod.fst).Nodup)
    (hcons : ∀ p ∈ s, p.2.date = some p.1) :
    buildSeen (s.map Prod.snd) = s := by
  suffices h : ∀ (s : List (String × PBar)) (init : List (String × PBar)),
      (init.map Prod.fst ++ s.map Prod.fst).Nodup →
      (∀ p ∈ s, p.2.date = some p.1) →
      (s.map Prod.snd).foldl
        (fun m b => match b.date with | none => m | some d => updateAssoc m d b) init
        = init ++ s by
    simpa using h s [] (by simpa using hnd) hcons
  intro s
  induction s with
  | nil => intro init _ _; simp
  | cons p rest ih =>
    intro init hnd2 hcons2
    have hdp : p.2.date = some p.1 := hcons2 p (by simp)
    have hfresh : p.1 ∉ init.map Prod.fst := by
      intro hmem
      simp only [List.map_cons] at hnd2
      have := (List.nodup_append.mp hnd2).2.2
      exact this hmem (by simp)
    have step : (p.2 :: rest.map Prod.snd).foldl
        (fun m b => match b.date with | none => m | some d => updateAssoc m d b) init
        = (rest.map Prod.snd).foldl
          (fun m b => match b.date with | none => m | some d => updateAssoc m d b)
          (init ++ [p]) := by
      simp only [List.foldl_cons, hdp]
      rw [updateAssoc_fresh p.1 p.2 init hfresh]
    simp only [List.map_cons, step]
    rw [ih (init ++ [p])]
    · simp
    · simp only [List.map_append, List.map_cons] at hnd2 ⊢
      simpa using hnd2
    · exact fun q hq => hcons2 q (by simp [hq])

/-- The dedupe `halfhours_to_hours` performs, as a standalone list
operation: for each `Date` the last-seen bar, at the position where that
`Date` first occurred (Python dict semantics); dateless bars are dropped,
as the dedupe dict drops them. -/
def keepLastByDate (l : List PBar) : List PBar := (buildSeen l).map Prod.snd

set_option maxHeartbeats 1000000 in
/-- C5 (amended): `halfhours_to_hours` (aggregator.py) deduplicates by
exact timestamp keeping the last-seen bar: its output on any list equals
its output on the deduplicated list, the deduplicated list carries pairwise
distinct dates, consists of bars of the input, and retains every date of
the input.  `aggregate_halfhours_to_hours` (aggregation.py) does not
deduplicate — see the counterexample. -/
theorem halfhours_dedup_pure (l : List PBar) :
    halfhours_to_hours (keepLastByDate l) = halfhours_to_hours l ∧
    ((keepLastByDate l).filterMap PBar.date).Nodup ∧
    (∀ b ∈ keepLastByDate l, b ∈ l) ∧
    (∀ s, (∃ b ∈ l, b.date = some s) → ∃ b ∈ keepLastByDate l, b.date = some s) := by
  obtain ⟨hnd, hcons, hcover⟩ := buildSeen_invariants l
  have hself : buildSeen (keepLastByDate l) = buildSeen l :=
    buildSeen_self (buildSeen l) hnd (fun p hp => (hcons p hp).1)
  refine ⟨?_, ?_, ?_, ?_⟩
  · cases l with
    | nil => rfl
    | cons b0 rest =>
      cases hK : keepLastByDate (b0 :: rest) with
      | nil =>
        have hseen : buildSeen (b0 :: rest) = [] := by
          have h5 := hK
          unfold keepLastByDate at h5
          exact List.map_eq_nil_iff.mp h5
        show ([] : List HBar) = h2hCore (buildSeen (b0 :: rest))
        rw [hseen]
        rfl
      | cons c cs =>
        show h2hCore (buildSeen (c :: cs)) = h2hCore (buildSeen (b0 :: rest))
        rw [← hK, hself]
  · have : (keepLastByDate l).filterMap PBar.date = (buildSeen l).map Prod.fst := by
      unfold keepLastByDate
      rw [List.filterMap_map]
      exact filterMap_eq_map_of_mem _ _ (buildSeen l) (fun p hp => by
        simpa using (hcons p hp).1)
    rw [this]
    exact hnd
  · intro b hb
    unfold keepLastByDate at hb
    rcases List.mem_map.mp hb with ⟨p, hp, hpe⟩
    rw [← hpe]
    exact (hcons p hp).2
  · intro s hs
    rcases hs with ⟨b, hb, hbd⟩
    have hk := hcover b hb s hbd
    rcases List.mem_map.mp hk with ⟨p, hp, hpe⟩
    refine ⟨p.2, List.mem_map_of_mem Prod.snd hp, ?_⟩
    rw [(hcons p hp).1, hpe]

/-- C5 witness: the dedup equation and retention on the duplicated bar. -/
theorem halfhours_dedup_pure_witness :
    (dupBar ∈ [dupBar, dupBar]) ∧
    (∃ b ∈ keepLastByDate [dupBar, dupBar], b.date = some "2025-01-01T09:00:00") :=
  ⟨(halfhours_dedup_pure [dupBar, dupBar]).2.2.1 dupBar
      (by simp [keepLastByDate, buildSeen, updateAssoc, dupBar]),
   (halfhours_dedup_pure [dupBar, dupBar]).2.2.2 "2025-01-01T09:00:00"
      ⟨dupBar, by simp, by simp [dupBar]⟩⟩

/-! ### Equivalence of the two aggregators on clean inputs (C10) -/

/-- The parsed timestamp of a bar (meaningful when its date parses). -/
def dtOf (b : PBar) : DT := (b.date.bind pyFromIso).getD ⟨0, 0, 0, 0, 0, 0⟩

/-- Each bar tagged with its parsed timestamp. -/
def pairing (l : List PBar) : List (DT × PBar) := l.map (fun b => (dtOf b, b))

lemma parseWithFallback_of_direct {s : String} {dt : DT} (h : pyFromIso s = some dt) :
    parseWithFallback s = some dt := by
  unfold parseWithFallback
  rw [h]

lemma dtOf_spec {b : PBar} (h : (b.date.bind pyFromIso).isSome = true) :
    ∃ s, b.date = some s ∧ pyFromIso s = some (dtOf b) ∧ s ≠ "" := by
  cases hd : b.date with
  | none => rw [hd] at h; simp at h
  | some s =>
    rw [hd] at h
    simp only [Option.some_bind] at h
    cases hps : pyFromIso s with
    | none => rw [hps] at h; simp at h
    | some dt =>
      refine ⟨s, rfl, ?_, ?_⟩
      · rw [hps]
        unfold dtOf
        rw [hd]
        simp [hps]
      · intro he
        subst he
        rw [show pyFromIso "" = none from rfl] at hps
        cases hps

lemma mkDT_bounds {y mo d hh mi ss : ℕ} {dt : DT} (h : mkDT y mo d hh mi ss = some dt) :
    dt.mi ≤ 99 ∧ dt.ss ≤ 99 := by
  unfold mkDT at h
  by_cases hc : 1 ≤ mo ∧ mo ≤ 12 ∧ 1 ≤ d ∧ d ≤ 31 ∧ hh ≤ 23 ∧ mi ≤ 59 ∧ ss ≤ 59
  · rw [if_pos hc] at h
    injection h with h2
    subst h2
    show mi ≤ 99 ∧ ss ≤ 99
    omega
  · rw [if_neg hc] at h
    cases h

lemma mk2_bounds {oy omo od ohh omi oss : Option ℕ} {dt : DT}
    (h : mk2 oy omo od ohh omi oss = some dt) : dt.mi ≤ 99 ∧ dt.ss ≤ 99 := by
  unfold mk2 at h
  cases oy <;> cases omo <;> cases od <;> cases ohh <;> cases omi <;> cases oss <;>
    first
    | cases h
    | exact mkDT_bounds h

lemma pyFromIso_bounds {s : String} {dt : DT} (h : pyFromIso s = some dt) :
    dt.mi ≤ 99 ∧ dt.ss ≤ 99 := by
  unfold pyFromIso at h
  split at h
  · exact mk2_bounds h
  · split at h
    · exact mk2_bounds h
    · cases h
  · split at h
    · exact mk2_bounds h
    · cases h
  · cases h

lemma hourStart_key_mono {a b : DT} (hma : a.mi ≤ 99) (hsa : a.ss ≤ 99)
    (hmb : b.mi ≤ 99) (hsb : b.ss ≤ 99) (h : a.key ≤ b.key) :
    a.hourStart.key ≤ b.hourStart.key := by
  unfold DT.key at h
  show ((((a.y * 100 + a.mo) * 100 + a.d) * 100 + a.hh) * 100 + 0) * 100 + 0 ≤
    ((((b.y * 100 + b.mo) * 100 + b.d) * 100 + b.hh) * 100 + 0) * 100 + 0
  omega

lemma insertSorted_append_of_all {α : Type} (le : α → α → Bool) (a : α) :
    ∀ acc : List α, (∀ b ∈ acc, le b a = true) → insertSorted le a acc = acc ++ [a] := by
  intro acc
  induction acc with
  | nil => intro _; rfl
  | cons b t ih =>
    intro h
    simp only [insertSorted, h b (by simp), if_true]
    rw [ih (fun x hx => h x (by simp [hx]))]
    rfl

/-- Sorting an already le-sorted list is the identity. -/
lemma sortByB_of_pairwise {α : Type} (le : α → α → Bool) (l : List α)
    (h : List.Pairwise (fun a b => le a b = true) l) : sortByB le l = l := by
  suffices hs : ∀ (l acc : List α), List.Pairwise (fun a b => le a b = true) (acc ++ l) →
      l.foldl (fun acc x => insertSorted le x acc) acc = acc ++ l by
    simpa using hs l [] (by simpa using h)
  intro l
  induction l with
  | nil => intro acc _; simp
  | cons a t ih =>
    intro acc hp
    have hstep : insertSorted le a acc = acc ++ [a] := by
      apply insertSorted_append_of_all
      intro b hb
      have := (List.pairwise_append.mp hp).2.2
      exact this b hb a (by simp)
    have : (a :: t).foldl (fun acc x => insertSorted le x acc) acc
        = t.foldl (fun acc x => insertSorted le x acc) (acc ++ [a]) := by
      simp [hstep]
    rw [this, ih (acc ++ [a]) (by simpa using hp)]
    simp

lemma date_str_eq_imp_dt_eq {a b : PBar}
    (ha : (a.date.bind pyFromIso).isSome = true)
    (hb : (b.date.bind pyFromIso).isSome = true)
    (h : a.date.getD "" = b.date.getD "") : dtOf a = dtOf b := by
  obtain ⟨sa, hda, hpa, _⟩ := dtOf_spec ha
  obtain ⟨sb, hdb, hpb, _⟩ := dtOf_spec hb
  rw [hda, hdb] at h
  simp only [Option.getD_some] at h
  subst h
  unfold dtOf
  rw [hda, hdb]

lemma buildSeen_of_parsed (l : List PBar)
    (hp : ∀ b ∈ l, (b.date.bind pyFromIso).isSome = true)
    (hsorted : List.Pairwise (fun a b => (dtOf a).key < (dtOf b).key) l) :
    buildSeen l = l.map (fun b => (b.date.getD "", b)) := by
  have hmem : List.Pairwise (fun a b => a ∈ l ∧ b ∈ l ∧ (dtOf a).key < (dtOf b).key) l := by
    rw [List.pairwise_iff_forall_sublist] at hsorted ⊢
    intro a b hsub
    refine ⟨hsub.subset (by simp), hsub.subset (by simp), hsorted hsub⟩
  have hnd : ((l.map (fun b => (b.date.getD "", b))).map Prod.fst).Nodup := by
    rw [List.map_map]
    show List.Pairwise _ _
    refine List.Pairwise.map _ ?_ hmem
    intro a b ⟨ha, hb, hlt⟩
    show a.date.getD "" ≠ b.date.getD ""
    intro he
    have := date_str_eq_imp_dt_eq (hp a ha) (hp b hb) he
    rw [this] at hlt
    omega
  have hcons : ∀ p ∈ l.map (fun b => (b.date.getD "", b)), p.2.date = some p.1 := by
    intro p hp2
    rcases List.mem_map.mp hp2 with ⟨b, hb, hbe⟩
    obtain ⟨s, hd, _, _⟩ := dtOf_spec (hp b hb)
    rw [← hbe]
    simp [hd]
  have := buildSeen_self (l.map (fun b => (b.date.getD "", b))) hnd hcons
  rw [List.map_map] at this
  rw [show (Prod.snd ∘ fun b : PBar => (b.date.getD "", b)) = id from rfl, List.map_id] at this
  exact this

lemma parsed_of_clean (l : List PBar)
    (hp : ∀ b ∈ l, (b.date.bind pyFromIso).isSome = true)
    (hsorted : List.Pairwise (fun a b => (dtOf a).key < (dtOf b).key) l) :
    (buildSeen l).filterMap (fun p => (parseWithFallback p.1).map (fun dt => (dt, p.2)))
      = pairing l := by
  rw [buildSeen_of_parsed l hp hsorted, List.filterMap_map]
  apply filterMap_eq_map_of_mem
  intro b hb
  obtain ⟨s, hd, hps, _⟩ := dtOf_spec (hp b hb)
  show (parseWithFallback ((b.date.getD ""))).map (fun dt => (dt, b)) = some (dtOf b, b)
  rw [hd]
  simp only [Option.getD_some]
  rw [parseWithFallback_of_direct hps]
  rfl

/-- The group-building fold both aggregators perform on the timestamped
bars. -/
def groupRuns (ps : List (DT × PBar)) : List (DT × List PBar) :=
  ps.foldl (fun g p => appendGroup g p.1.hourStart p.2) []

lemma appendGroup_keys {α : Type} (k : DT) (b : α) :
    ∀ g : List (DT × List α), (appendGroup g k b).map Prod.fst =
      if k ∈ g.map Prod.fst then g.map Prod.fst else g.map Prod.fst ++ [k] := by
  intro g
  induction g with
  | nil => simp [appendGroup]
  | cons p t ih =>
    cases p with
    | mk k' bs =>
      by_cases h : k' = k
      · subst h
        simp [appendGroup]
      · simp only [appendGroup, if_neg h, List.map_cons, ih]
        by_cases h2 : k ∈ t.map Prod.fst
        · simp [h2, Ne.symm h]
        · simp [h2, Ne.symm h]

lemma appendGroup_nonempty {α : Type} {k : DT} {b : α} :
    ∀ g : List (DT × List α), (∀ p ∈ g, p.2 ≠ []) →
      ∀ p ∈ appendGroup g k b, p.2 ≠ [] := by
  intro g
  induction g with
  | nil =>
    intro _ p hp
    simp only [appendGroup, List.mem_singleton] at hp
    subst hp
    simp
  | cons q t ih =>
    intro hg p hp
    cases q with
    | mk k' bs =>
      by_cases h : k' = k
      · subst h
        simp only [appendGroup, if_pos rfl] at hp
        rcases List.mem_cons.mp hp with rfl | hp2
        · simp
        · exact hg p (by simp [hp2])
      · simp only [appendGroup, if_neg h] at hp
        rcases List.mem_cons.mp hp with rfl | hp2
        · exact hg (k', bs) (by simp)
        · exact ih (fun q hq => hg q (by simp [hq])) p hp2

lemma appendGroup_sublist {α : Type} {k : DT} {b : α} {done : List α} :
    ∀ g : List (DT × List α), (∀ p ∈ g, p.2.Sublist done) →
      ∀ p ∈ appendGroup g k b, p.2.Sublist (done ++ [b]) := by
  intro g
  induction g with
  | nil =>
    intro _ p hp
    simp only [appendGroup, List.mem_singleton] at hp
    subst hp
    simpa using List.sublist_append_right done [b]
  | cons q t ih =>
    intro hg p hp
    cases q with
    | mk k' bs =>
      by_cases h : k' = k
      · subst h
        simp only [appendGroup, if_pos rfl] at hp
        rcases List.mem_cons.mp hp with rfl | hp2
        · exact (hg (k', bs) (by simp)).append (List.Sublist.refl [b])
        · exact ((hg p (by simp [hp2]))).trans (List.sublist_append_left done [b])
      · simp only [appendGroup, if_neg h] at hp
        rcases List.mem_cons.mp hp with rfl | hp2
        · exact ((hg (k', bs) (by simp))).trans (List.sublist_append_left done [b])
        · exact ih (fun q hq => hg q (by simp [hq])) p hp2

lemma groupRuns_sublist (ps : List (DT × PBar)) :
    ∀ p ∈ groupRuns ps, p.2.Sublist (ps.map Prod.snd) := by
  suffices h : ∀ (ps : List (DT × PBar)) (g : List (DT × List PBar)) (done : List PBar),
      (∀ p ∈ g, p.2.Sublist done) →
      ∀ p ∈ ps.foldl (fun g p => appendGroup g p.1.hourStart p.2) g,
        p.2.Sublist (done ++ ps.map Prod.snd) by
    intro p hp
    simpa using h ps [] [] (by simp) p hp
  intro ps
  induction ps with
  | nil => intro g done hg p hp; simpa using hg p hp
  | cons q qs ih =>
    intro g done hg p hp
    simp only [List.foldl_cons] at hp
    have step := @appendGroup_sublist PBar q.1.hourStart q.2 done g hg
    have := ih (appendGroup g q.1.hourStart q.2) (done ++ [q.2]) step p hp
    simpa [List.append_assoc] using this

lemma groupRuns_nonempty (ps : List (DT × PBar)) :
    ∀ p ∈ groupRuns ps, p.2 ≠ [] := by
  suffices h : ∀ (ps : List (DT × PBar)) (g : List (DT × List PBar)),
      (∀ p ∈ g, p.2 ≠ []) →
      ∀ p ∈ ps.foldl (fun g p => appendGroup g p.1.hourStart p.2) g, p.2 ≠ [] by
    exact h ps [] (by simp)
  intro ps
  induction ps with
  | nil => intro g hg p hp; exact hg p hp
  | cons q qs ih =>
    intro g hg p hp
    simp only [List.foldl_cons] at hp
    exact ih _ (appendGroup_nonempty g hg) p hp

lemma groupRuns_keys (ps : List (DT × PBar))
    (hps : List.Pairwise (fun a b : DT × PBar =>
      dtLeB a.1.hourStart b.1.hourStart = true) ps) :
    ((groupRuns ps).map Prod.fst).Pairwise (fun a b => dtLeB a b = true) ∧
    ((groupRuns ps).map Prod.fst).Nodup := by
  suffices h : ∀ (ps : List (DT × PBar)) (g : List (DT × List PBar)),
      ((g.map Prod.fst).Pairwise (fun a b => dtLeB a b = true)) →
      ((g.map Prod.fst).Nodup) →
      (∀ k ∈ g.map Prod.fst, ∀ q ∈ ps, dtLeB k q.1.hourStart = true) →
      List.Pairwise (fun a b : DT × PBar => dtLeB a.1.hourStart b.1.hourStart = true) ps →
      ((ps.foldl (fun g p => appendGroup g p.1.hourStart p.2) g).map Prod.fst).Pairwise
          (fun a b => dtLeB a b = true) ∧
        ((ps.foldl (fun g p => appendGroup g p.1.hourStart p.2) g).map Prod.fst).Nodup by
    exact h ps [] (by simp) (by simp) (by simp) hps
  intro ps
  induction ps with
  | nil => intro g h1 h2 _ _; exact ⟨h1, h2⟩
  | cons q qs ih =>
    intro g h1 h2 h3 h4
    rw [List.pairwise_cons] at h4
    simp only [List.foldl_cons]
    set g' := appendGroup g q.1.hourStart q.2 with hg'
    have hkeys := appendGroup_keys q.1.hourStart q.2 g
    by_cases hmem : q.1.hourStart ∈ g.map Prod.fst
    · rw [if_pos hmem] at hkeys
      refine ih g' (by rw [hg', hkeys]; exact h1) (by rw [hg', hkeys]; exact h2) ?_ h4.2
      intro k hk q' hq'
      rw [hg', hkeys] at hk
      exact h3 k hk q' (by simp [hq'])
    · rw [if_neg hmem] at hkeys
      refine ih g' ?_ ?_ ?_ h4.2
      · rw [hg', hkeys, List.pairwise_append]
        refine ⟨h1, by simp, ?_⟩
        intro a ha b hb
        simp only [List.mem_singleton] at hb
        subst hb
        exact h3 a ha q (by simp)
      · rw [hg', hkeys, List.nodup_append]
        exact ⟨h2, by simp, by
          intro a ha hb
          simp only [List.mem_singleton] at hb
          subst hb
          exact hmem ha⟩
      · intro k hk q' hq'
        rw [hg', hkeys] at hk
        rcases List.mem_append.mp hk with hk2 | hk2
        · exact h3 k hk2 q' (by simp [hq'])
        · simp only [List.mem_singleton] at hk2
          subst hk2
          exact h4.1 q' hq'

lemma filterMap_congr_of_mem {α β : Type} {f g : α → Option β} :
    ∀ l : List α, (∀ a ∈ l, f a = g a) → l.filterMap f = l.filterMap g := by
  intro l
  induction l with
  | nil => intro _; rfl
  | cons a t ih =>
    intro h
    rw [List.filterMap_cons, List.filterMap_cons, h a (by simp),
      ih (fun x hx => h x (by simp [hx]))]

/-- Emitting buckets by looking each of the dict's own keys up equals
emitting the dict's pairs directly. -/
lemma emit_lookup_eq {β : Type} (F : DT → List PBar → Option β) :
    ∀ g : List (DT × List PBar), ((g.map Prod.fst).Nodup) →
      (g.map Prod.fst).filterMap (fun k => (lookupGroup g k).bind (fun bs => F k bs))
        = g.filterMap (fun p => F p.1 p.2) := by
  intro g
  induction g with
  | nil => intro _; rfl
  | cons p t ih =>
    intro hnd
    cases p with
    | mk k0 bs =>
      simp only [List.map_cons, List.nodup_cons] at hnd
      rw [List.map_cons, List.filterMap_cons, List.filterMap_cons]
      have hh : lookupGroup ((k0, bs) :: t) k0 = some bs := by
        simp [lookupGroup]
      have ht : (t.map Prod.fst).filterMap
            (fun k => (lookupGroup ((k0, bs) :: t) k).bind (fun bs => F k bs))
          = (t.map Prod.fst).filterMap (fun k => (lookupGroup t k).bind (fun bs => F k bs)) := by
        apply filterMap_congr_of_mem
        intro k hk
        have : k ≠ k0 := by
          intro he
          exact hnd.1 (he ▸ hk)
        simp [lookupGroup, Ne.symm this]
      rw [hh, ht, ih hnd.2]
      simp only [Option.some_bind]

lemma agg1_fold_eq :
    ∀ (l : List PBar) (g : List (DT × List PBar)),
      (∀ b ∈ l, (b.date.bind pyFromIso).isSome = true) →
      l.foldl (fun g b =>
        match b.date with
        | none => g
        | some s =>
          if s = "" then g else
          match pyFromIso s with
          | some dt => appendGroup g dt.hourStart b
          | none =>
            match pyFromIso (strTake s 13 ++ ":00:00") with
            | some fdt => appendGroup g fdt b
            | none => g) g
      = (pairing l).foldl (fun g p => appendGroup g p.1.hourStart p.2) g := by
  intro l
  induction l with
  | nil => intro g _; rfl
  | cons b t ih =>
    intro g hp
    obtain ⟨s, hd, hps, hne⟩ := dtOf_spec (hp b (by simp))
    simp only [List.foldl_cons, pairing, List.map_cons, hd, hps, if_neg hne]
    exact ih _ (fun x hx => hp x (by simp [hx]))

lemma pyOrQ_some (v : ℚ) : pyOrQ (some v) 0 = v := by
  unfold pyOrQ
  by_cases h : v = 0
  · simp [h]
  · simp [h]

lemma pyInt_cast_of_den_one {q : ℚ} (h : q.den = 1) : ((pyInt q : ℤ) : ℚ) = q := by
  unfold pyInt
  rw [h]
  simp only [Nat.cast_one, Int.tdiv_one]
  have := Rat.num_div_den q
  rw [h] at this
  simpa using this

/-- The last element computed by `lastBar` belongs to the bucket. -/
lemma lastBar_mem (i : PBar) : ∀ is : List PBar, lastBar i is ∈ i :: is := by
  intro is
  induction is generalizing i with
  | nil => simp [lastBar]
  | cons j js ih =>
    have := ih j
    simp only [lastBar]
    rcases List.mem_cons.mp this with h | h
    · simp [h]
    · simp [h]

lemma pairwise_and_mem {α : Type} {R : α → α → Prop} {l : List α} (h : l.Pairwise R) :
    l.Pairwise (fun a b => a ∈ l ∧ b ∈ l ∧ R a b) := by
  rw [List.pairwise_iff_forall_sublist] at h ⊢
  intro a b hsub
  exact ⟨hsub.subset (by simp), hsub.subset (by simp), h hsub⟩

lemma sortItems_of_clean (bs : List PBar)
    (hsub : ∀ b ∈ bs, (b.date.bind pyFromIso).isSome = true)
    (hsorted : List.Pairwise (fun a b => (dtOf a).key < (dtOf b).key) bs) :
    sortItems bs = bs := by
  unfold sortItems
  have hall : bs.all (fun x => (pyFromIso (x.date.getD "")).isSome) = true := by
    rw [List.all_eq_true]
    intro x hx
    obtain ⟨s, hd, hps, _⟩ := dtOf_spec (hsub x hx)
    rw [hd]
    simp [hps]
  rw [if_pos hall]
  apply sortByB_of_pairwise
  refine List.Pairwise.imp_of_mem ?_ (pairwise_and_mem hsorted)
  intro a b ha hb hR
  obtain ⟨sa, hda, hpa, _⟩ := dtOf_spec (hsub a hR.1)
  obtain ⟨sb, hdb, hpb, _⟩ := dtOf_spec (hsub b hR.2.1)
  have hga : (pyFromIso (a.date.getD "")).getD ⟨0, 0, 0, 0, 0, 0⟩ = dtOf a := by
    rw [hda]
    simp [hpa]
  have hgb : (pyFromIso (b.date.getD "")).getD ⟨0, 0, 0, 0, 0, 0⟩ = dtOf b := by
    rw [hdb]
    simp [hpb]
  show dtLeB _ _ = true
  rw [hga, hgb]
  unfold dtLeB
  exact decide_eq_true (le_of_lt hR.2.2)

lemma mkHourBar_eq (k : DT) (i : PBar) (is : List PBar)
    (hoc : ∀ b ∈ i :: is, b.openF ≠ none ∧ b.closeF ≠ none)
    (hvol : ∀ b ∈ i :: is, (pyOrQ b.volF 0).den = 1) :
    mkHourBar1 k i is = mkHourBar2 k i is := by
  obtain ⟨vo, hvo⟩ := Option.ne_none_iff_exists'.mp (hoc i (by simp)).1
  obtain ⟨vc, hvc⟩ := Option.ne_none_iff_exists'.mp (hoc _ (lastBar_mem i is)).2
  unfold mkHourBar1 mkHourBar2
  simp only [hvo, hvc, pyOrQ_some]
  refine congrArg₂ _ rfl ?_
  show (((((i :: is).map (fun x => pyInt (pyOrQ x.volF 0))).sum : ℤ) : ℚ)) =
    ((i :: is).map (fun x => pyOrQ x.volF 0)).sum
  rw [Int.cast_list_sum, List.map_map]
  apply congrArg
  apply List.map_congr_left
  intro x hx
  exact pyInt_cast_of_den_one (hvol x hx)

lemma pairing_pairwise_le (l : List PBar)
    (hsorted : List.Pairwise (fun a b => (dtOf a).key < (dtOf b).key) l) :
    List.Pairwise (fun a b : DT × PBar => dtLeB a.1 b.1 = true) (pairing l) := by
  unfold pairing
  rw [List.pairwise_map]
  refine List.Pairwise.imp ?_ hsorted
  intro a b h
  exact decide_eq_true (le_of_lt h)

lemma pairing_pairwise_hour (l : List PBar)
    (hp : ∀ b ∈ l, (b.date.bind pyFromIso).isSome = true)
    (hsorted : List.Pairwise (fun a b => (dtOf a).key < (dtOf b).key) l) :
    List.Pairwise (fun a b : DT × PBar =>
      dtLeB a.1.hourStart b.1.hourStart = true) (pairing l) := by
  unfold pairing
  rw [List.pairwise_map]
  refine List.Pairwise.imp ?_ (pairwise_and_mem hsorted)
  intro a b h
  obtain ⟨ha, hb, hlt⟩ := h
  obtain ⟨sa, hda, hpa, _⟩ := dtOf_spec (hp a ha)
  obtain ⟨sb, hdb, hpb, _⟩ := dtOf_spec (hp b hb)
  obtain ⟨hma, hsa2⟩ := pyFromIso_bounds hpa
  obtain ⟨hmb, hsb2⟩ := pyFromIso_bounds hpb
  exact decide_eq_true (hourStart_key_mono hma hsa2 hmb hsb2 (le_of_lt hlt))

lemma h2h_clean_canonical (l : List PBar)
    (hp : ∀ b ∈ l, (b.date.bind pyFromIso).isSome = true)
    (hsorted : List.Pairwise (fun a b => (dtOf a).key < (dtOf b).key) l) :
    halfhours_to_hours l
      = (groupRuns (pairing l)).filterMap
          (fun p => match p.2 with
            | [] => none
            | i :: is => some (mkHourBar2 p.1 i is)) := by
  obtain ⟨hkLe, hkNd⟩ := groupRuns_keys (pairing l) (pairing_pairwise_hour l hp hsorted)
  cases l with
  | nil => rfl
  | cons b0 rest =>
    simp only [halfhours_to_hours, h2hCore]
    rw [parsed_of_clean (b0 :: rest) hp hsorted]
    rw [sortByB_of_pairwise (fun a b : DT × PBar => dtLeB a.1 b.1) (pairing (b0 :: rest))
      (pairing_pairwise_le (b0 :: rest) hsorted)]
    rw [show (pairing (b0 :: rest)).foldl (fun g p => appendGroup g p.1.hourStart p.2)
        ([] : List (DT × List PBar)) = groupRuns (pairing (b0 :: rest)) from rfl]
    rw [sortByB_of_pairwise dtLeB ((groupRuns (pairing (b0 :: rest))).map Prod.fst) hkLe]
    have hfun : (fun k =>
        match lookupGroup (groupRuns (pairing (b0 :: rest))) k with
        | none => none
        | some [] => none
        | some (i :: is) => some (mkHourBar2 k i is))
      = (fun k => (lookupGroup (groupRuns (pairing (b0 :: rest))) k).bind
          (fun bs =>
            match bs with
            | [] => none
            | i :: is => some (mkHourBar2 k i is))) := by
      funext k
      cases lookupGroup (groupRuns (pairing (b0 :: rest))) k with
      | none => rfl
      | some bs => cases bs <;> rfl
    rw [hfun, emit_lookup_eq
      (fun k bs =>
        match bs with
        | [] => none
        | i :: is => some (mkHourBar2 k i is)) (groupRuns (pairing (b0 :: rest))) hkNd]

lemma aggregate_clean_canonical (l : List PBar)
    (hp : ∀ b ∈ l, (b.date.bind pyFromIso).isSome = true)
    (hsorted : List.Pairwise (fun a b => (dtOf a).key < (dtOf b).key) l) :
    aggregate_halfhours_to_hours l
      = (groupRuns (pairing l)).filterMap
          (fun p => match sortItems p.2 with
            | [] => none
            | i :: is => some (mkHourBar1 p.1 i is)) := by
  obtain ⟨hkLe, _⟩ := groupRuns_keys (pairing l) (pairing_pairwise_hour l hp hsorted)
  cases l with
  | nil => rfl
  | cons b0 rest =>
    obtain ⟨s0, hd0, hp0, hne0⟩ := dtOf_spec (hp b0 (by simp))
    have hhead : endDateParsed (b0 :: rest).head? = some (dtOf b0) := by
      show endDateParsed (some b0) = _
      simp only [endDateParsed, hd0]
      rw [if_neg hne0, hp0]
    have hnil : b0 :: rest ≠ [] := by simp
    have hblmem : (b0 :: rest).getLast hnil ∈ b0 :: rest := List.getLast_mem hnil
    obtain ⟨sl, hdl, hpl, hnel⟩ := dtOf_spec (hp _ hblmem)
    have hlast : endDateParsed (b0 :: rest).getLast?
        = some (dtOf ((b0 :: rest).getLast hnil)) := by
      rw [List.getLast?_eq_getLast _ hnil]
      simp only [endDateParsed, hdl]
      rw [if_neg hnel, hpl]
    have hkey : (dtOf b0).key ≤ (dtOf ((b0 :: rest).getLast hnil)).key := by
      rcases List.mem_cons.mp hblmem with h | h
      · exact le_of_eq (by rw [h])
      · exact le_of_lt ((List.pairwise_cons.mp hsorted).1 _ h)
    have hdec : decide ((dtOf ((b0 :: rest).getLast hnil)).key < (dtOf b0).key) = false :=
      decide_eq_false (not_lt.mpr hkey)
    simp only [aggregate_halfhours_to_hours]
    rw [hhead, hlast]
    simp only [hdec, Bool.false_eq_true, if_false]
    rw [agg1_fold_eq (b0 :: rest) [] hp]
    rw [show (pairing (b0 :: rest)).foldl (fun g p => appendGroup g p.1.hourStart p.2)
        ([] : List (DT × List PBar)) = groupRuns (pairing (b0 :: rest)) from rfl]
    rw [sortByB_of_pairwise (fun a b : DT × List PBar => dtLeB a.1 b.1)
      (groupRuns (pairing (b0 :: rest))) (List.pairwise_map.mp hkLe)]

set_option maxHeartbeats 1000000 in
/-- C10 (amended): on clean input — every bar's Date parses via
`fromisoformat`, timestamps strictly ascending, Open and Close present on
every bar, and whole-number volumes — `halfhours_to_hours` (aggregator.py)
and `aggregate_halfhours_to_hours` (aggregation.py) produce identical
hourly bars. -/
theorem aggregators_agree (l : List PBar)
    (hp : ∀ b ∈ l, (b.date.bind pyFromIso).isSome = true)
    (hsorted : List.Pairwise (fun a b => (dtOf a).key < (dtOf b).key) l)
    (hoc : ∀ b ∈ l, b.openF ≠ none ∧ b.closeF ≠ none)
    (hvol : ∀ b ∈ l, (pyOrQ b.volF 0).den = 1) :
    halfhours_to_hours l = aggregate_halfhours_to_hours l := by
  rw [h2h_clean_canonical l hp hsorted, aggregate_clean_canonical l hp hsorted]
  apply filterMap_congr_of_mem
  intro p hpmem
  have hne := groupRuns_nonempty (pairing l) p hpmem
  have hsub : p.2.Sublist l := by
    have h1 := groupRuns_sublist (pairing l) p hpmem
    unfold pairing at h1
    rw [List.map_map] at h1
    rw [show (Prod.snd ∘ fun b : PBar => (dtOf b, b)) = id from rfl, List.map_id] at h1
    exact h1
  have hsubset : ∀ b ∈ p.2, b ∈ l := fun b hb => hsub.subset hb
  have hbsorted : List.Pairwise (fun a b => (dtOf a).key < (dtOf b).key) p.2 :=
    List.Pairwise.sublist hsub hsorted
  cases hb2 : p.2 with
  | nil => exact absurd hb2 hne
  | cons i is =>
    rw [hb2] at hsubset hbsorted
    rw [sortItems_of_clean (i :: is) (fun b hb => hp b (hsubset b hb)) hbsorted]
    exact congrArg some (mkHourBar_eq p.1 i is
      (fun b hb => hoc b (hsubset b hb)) (fun b hb => hvol b (hsubset b hb))).symm

/-- A second well-formed half-hour bar, 30 minutes after `dupBar`. -/
def dupBarB : PBar := ⟨some "2025-01-01T09:30:00", some 2, some 3, some 2, some 3, some 5⟩

set_option maxHeartbeats 1000000 in
theorem aggregators_agree_witness :
    halfhours_to_hours [dupBar, dupBarB] = aggregate_halfhours_to_hours [dupBar, dupBarB] := by
  apply aggregators_agree
  · intro b hb
    rcases List.mem_cons.mp hb with rfl | hb2
    · decide
    · rcases List.mem_cons.mp hb2 with rfl | h3
      · decide
      · cases h3
  · refine List.Pairwise.cons ?_ (List.pairwise_singleton _ _)
    intro b hb
    rcases List.mem_cons.mp hb with rfl | h3
    · decide
    · cases h3
  · intro b hb
    rcases List.mem_cons.mp hb with rfl | hb2
    · exact ⟨by decide, by decide⟩
    · rcases List.mem_cons.mp hb2 with rfl | h3
      · exact ⟨by decide, by decide⟩
      · cases h3
  · intro b hb
    rcases List.mem_cons.mp hb with rfl | hb2
    · show (pyOrQ (some 10) 0).den = 1
      norm_num [pyOrQ, Rat.den_ofNat]
    · rcases List.mem_cons.mp hb2 with rfl | h3
      · show (pyOrQ (some 5) 0).den = 1
        norm_num [pyOrQ, Rat.den_ofNat]
      · cases h3
